import Mathlib

/-!
Verification of the path-extraction core of `get_paths.py`.

The embedding models the Python code directly:

* Python dicts `dict[str, list[str]]` become association lists
  (`AdjMap`), looked up by first match (Python dicts have unique keys,
  so this coincides with dict lookup; where a proof needs the unique-key
  invariant it is an explicit hypothesis).
* `generate_paths_dfs` is the explicit-stack DFS of lines 124-174.
  `random.shuffle` is modelled by an explicitly passed function
  `shuffle : List String → List String`; theorems that depend on its
  behaviour assume `∀ l, shuffle l ~ l` (a shuffle is a permutation).
  Crucially, `mapping.get(current, [])` returns the stored list object
  and `random.shuffle` mutates it in place, so the adjacency mapping is
  threaded through the loop as state and updated at each expansion.
  The Python `while` loop is modelled with explicit fuel; `defaultFuel`
  is proved sufficient (see `dfsLoop_isSome_of_measure_lt`), so
  `generate_paths_dfs` computes exactly what the loop computes.
* The truthiness tests `if max_paths and ...` / `if max_depth and ...`
  (which make a `0` bound behave as no bound) are modelled by
  `maxPathsHit` / `maxDepthSkip` over `Option Int`; the `is None` test
  for `min_depth` is `minDepthOk`.
* `PathTrie` (lines 37-109) becomes the nested inductive `TrieNode`;
  `TrieNode.insert` and `TrieNode.traverse` mirror `PathTrie.insert`
  and `PathTrie.traverse` (children stored in dict insertion order).
* `invert_mapping` (lines 177-195) and the combination loop of
  direction "both" (lines 356-362) are embedded as `invert_mapping`
  and `combineBoth`.
-/

/-- A Python `dict[str, list[str]]` as an association list. -/
abbrev AdjMap := List (String × List String)

/-- First-match association-list lookup (Python dict lookup). -/
def lookupA : AdjMap → String → Option (List String)
  | [], _ => none
  | (k, v) :: rest, key => if k = key then some v else lookupA rest key

/-- Replace the value stored at `key` (Python `d[key] = v` for a present key;
entries with other keys are untouched). -/
def updateA (m : AdjMap) (key : String) (v : List String) : AdjMap :=
  m.map (fun kv => if kv.1 = key then (key, v) else kv)

/-- Python `if max_paths and paths_generated >= max_paths` --- truthiness test,
so `None` and `0` never trigger the break. -/
def maxPathsHit (maxP : Option Int) (cnt : Nat) : Bool :=
  match maxP with
  | none => false
  | some mp => mp != 0 && decide ((cnt : Int) ≥ mp)

/-- Python `if max_depth and len(path) > max_depth` --- truthiness test,
so `None` and `0` never cause a skip. -/
def maxDepthSkip (maxD : Option Int) (len : Nat) : Bool :=
  match maxD with
  | none => false
  | some md => md != 0 && decide ((len : Int) > md)

/-- Python `min_depth is None or len(path) >= min_depth` (an `is None` test,
not a truthiness test). -/
def minDepthOk (minD : Option Int) (len : Nat) : Bool :=
  match minD with
  | none => true
  | some md => decide ((len : Int) ≥ md)

/-- The `while stack:` loop of `generate_paths_dfs` (lines 148-174), with
explicit fuel.  State: the stack of `(current, path)` frames (head = top),
the `paths_generated` counter, and the adjacency mapping (mutated in place
by `random.shuffle(adjacent_nodes)`, hence threaded).  Returns the yielded
paths in generation order together with the final mapping, or `none` if
fuel runs out. -/
def dfsLoop (shuffle : List String → List String) (minD maxD maxP : Option Int) :
    Nat → List (String × List String) → Nat → AdjMap →
    Option (List (List String) × AdjMap)
  | 0, _, _, _ => none
  | _ + 1, [], _, mapping => some ([], mapping)
  | fuel + 1, (current, path) :: rest, cnt, mapping =>
    if maxPathsHit maxP cnt then
      some ([], mapping)
    else if maxDepthSkip maxD path.length then
      dfsLoop shuffle minD maxD maxP fuel rest cnt mapping
    else
      match (lookupA mapping current).getD [] with
      | [] =>
        if minDepthOk minD path.length then
          (dfsLoop shuffle minD maxD maxP fuel rest (cnt + 1) mapping).map
            (fun r => (path :: r.1, r.2))
        else
          dfsLoop shuffle minD maxD maxP fuel rest cnt mapping
      | adjHd :: adjTl =>
        dfsLoop shuffle minD maxD maxP fuel
          ((((shuffle (adjHd :: adjTl)).filter
              (fun a => decide (a ∉ path))).map
            (fun a => (a, path ++ [a]))).reverse ++ rest)
          cnt
          (updateA mapping current (shuffle (adjHd :: adjTl)))

/-- The largest adjacency-list length in the mapping (branching bound). -/
def maxAdjLen (m : AdjMap) : Nat :=
  m.foldr (fun kv acc => max kv.2.length acc) 0

/-- Every node identifier that can ever appear during the traversal:
the start node, all keys, and all neighbor entries. -/
def uniList (node : String) (m : AdjMap) : List String :=
  node :: m.flatMap (fun kv => kv.1 :: kv.2)

/-- Fuel that is provably sufficient for `dfsLoop` to run to completion. -/
def defaultFuel (node : String) (m : AdjMap) : Nat :=
  (maxAdjLen m + 1) ^ (uniList node m).dedup.length + 1

/-- `generate_paths_dfs(node, mapping, min_depth, max_depth, max_paths)`
(lines 124-174), returning the list of yielded paths and the final state of
the (in-place shuffled) adjacency mapping. -/
def generate_paths_dfs (shuffle : List String → List String) (node : String)
    (mapping : AdjMap) (minD maxD maxP : Option Int) :
    List (List String) × AdjMap :=
  match dfsLoop shuffle minD maxD maxP (defaultFuel node mapping)
      [(node, [node])] 0 mapping with
  | some r => r
  | none => ([], mapping)

/-- A node of the `PathTrie` (lines 37-48): a dict of child edges (kept in
insertion order, as Python dicts are) and the `is_end_of_path` flag. -/
inductive TrieNode where
  | mk (children : List (String × TrieNode)) (is_end_of_path : Bool)

/-- The `children` dict of a trie node. -/
def TrieNode.children : TrieNode → List (String × TrieNode)
  | .mk cs _ => cs

/-- The `is_end_of_path` flag of a trie node. -/
def TrieNode.isEnd : TrieNode → Bool
  | .mk _ e => e

/-- First-match lookup in a trie node's children dict. -/
def lookupC : List (String × TrieNode) → String → Option TrieNode
  | [], _ => none
  | (k, v) :: rest, key => if k = key then some v else lookupC rest key

/-- Replace the child stored at `key` in a children dict. -/
def updateC (cs : List (String × TrieNode)) (key : String) (t : TrieNode) :
    List (String × TrieNode) :=
  cs.map (fun c => if c.1 = key then (key, t) else c)

/-- `PathTrie.insert` (lines 62-74): walk the path down from this node,
creating missing children (appended at the end of the dict, i.e. in
insertion order), and set `is_end_of_path` at the final node. -/
def TrieNode.insert : TrieNode → List String → TrieNode
  | .mk cs _, [] => .mk cs true
  | .mk cs e, x :: rest =>
    match lookupC cs x with
    | some child => .mk (updateC cs x (child.insert rest)) e
    | none => .mk (cs ++ [(x, (TrieNode.mk [] false).insert rest)]) e

/-- The empty trie (`PathTrie.__init__`). -/
def emptyTrie : TrieNode := .mk [] false

/-- Inserting a whole collection of paths into a fresh trie. -/
def trieOf (paths : List (List String)) : TrieNode :=
  paths.foldl (fun t p => t.insert p) emptyTrie

mutual

/-- `PathTrie.traverse` (lines 76-109): emit `path` at a node that is an
end-of-path with no children, then recurse into each child in dict order
with the child's entity appended to the running path. -/
def TrieNode.traverse : TrieNode → List String → List (List String)
  | .mk cs e, path =>
    (if e && cs.isEmpty then [path] else []) ++ traverseChildren cs path

/-- The `for entity, child_node in node.children.items()` loop of
`PathTrie.traverse`. -/
def traverseChildren : List (String × TrieNode) → List String → List (List String)
  | [], _ => []
  | (x, c) :: rest, path => c.traverse (path ++ [x]) ++ traverseChildren rest path

end

/-- Walk a path down from a trie node, returning the node it leads to. -/
def findNode : TrieNode → List String → Option TrieNode
  | t, [] => some t
  | t, x :: rest =>
    match lookupC t.children x with
    | some c => findNode c rest
    | none => none

/-- Whether the trie marks `p` as an inserted path (`is_end_of_path` at the
node reached by `p`). -/
def endAt (t : TrieNode) (p : List String) : Bool :=
  match findNode t p with
  | some n => n.isEnd
  | none => false

/-- Whether the trie has a node at `p`. -/
def nodeAt (t : TrieNode) (p : List String) : Bool :=
  (findNode t p).isSome

/-- Whether the node reached by `p` has no children. -/
def leafAt (t : TrieNode) (p : List String) : Bool :=
  match findNode t p with
  | some n => n.children.isEmpty
  | none => false

/-- Well-formedness of a trie: every children dict has duplicate-free keys
(true of every trie built by repeated insertion, as Python dicts cannot have
duplicate keys). -/
inductive TrieWF : TrieNode → Prop where
  | mk : ∀ {cs : List (String × TrieNode)} {e : Bool},
      (cs.map Prod.fst).Nodup → (∀ c ∈ cs, TrieWF c.2) → TrieWF (.mk cs e)

/-- `invert_mapping`'s accumulation step: `parent_to_children[parent].add(child)`
(line 192).  The set is modelled as a duplicate-free list; a new parent key is
appended in first-seen order, matching `defaultdict` insertion order. -/
def addChild (acc : AdjMap) (parent child : String) : AdjMap :=
  match lookupA acc parent with
  | some cs => updateA acc parent (if child ∈ cs then cs else cs ++ [child])
  | none => acc ++ [(parent, [child])]

/-- The `for child, parents in child_to_parents.items(): for parent in parents`
accumulation loop of `invert_mapping` (lines 190-192). -/
def invertAcc (child_to_parents : AdjMap) : AdjMap :=
  child_to_parents.foldl
    (fun acc kv => kv.2.foldl (fun a parent => addChild a parent kv.1) acc) []

/-- `invert_mapping` (lines 177-195): accumulate every `(parent, child)` edge
with set semantics, then sort each children list
(`sorted(children)`, line 195). -/
def invert_mapping (child_to_parents : AdjMap) : AdjMap :=
  (invertAcc child_to_parents).map
    (fun kv => (kv.1, kv.2.insertionSort (fun a b => a ≤ b)))

/-- The multiset of `(key, value-element)` edges represented by a mapping. -/
def edgesOf (m : AdjMap) : List (String × String) :=
  m.flatMap (fun kv => kv.2.map (fun v => (kv.1, v)))

/-- The direction-"both" combination loop (lines 356-362): for every upward
path, reverse it and drop its last element, and concatenate with every
downward path, in nested-loop order. -/
def combineBoth (ups downs : List (List String)) : List (List String) :=
  ups.flatMap (fun u => downs.map (fun d => u.reverse.dropLast ++ d))

/-- Per-class statistics that reach the log (lines 530-542), restricted to
the two fields the claims are about. -/
structure NodeResult where
  combined_paths : Nat
  num_batches : Nat

/-- Number of TSV batches written for `n` paths at a given `batch_size`:
a flush every time the buffer reaches `batch_size` (line 365) plus a final
flush of a non-empty remainder (line 386).  With `batch_size = 0` the
`len(batch_paths) == batch_size` test never fires after an append, so all
paths land in the single final flush. -/
def numBatches (n batchSize : Nat) : Nat :=
  if batchSize = 0 then (if n = 0 then 0 else 1)
  else n / batchSize + (if n % batchSize = 0 then 0 else 1)

/-- The combination/batching stage of `sample_and_combine_paths`
(lines 342-522) as (combined_paths_count, num_batches): the `both`,
`upward` and `downward` branches count `|U|*|D|`, `|U|`, `|D|` paths
respectively; any other direction falls into the `else` branch
(lines 517-522) which sets both counters to zero. -/
def combineStage (direction : String) (uniqueUps uniqueDowns : List (List String))
    (batchSize : Nat) : Nat × Nat :=
  if direction = "both" then
    (uniqueUps.length * uniqueDowns.length,
      numBatches (uniqueUps.length * uniqueDowns.length) batchSize)
  else if direction = "upward" then
    (uniqueUps.length, numBatches uniqueUps.length batchSize)
  else if direction = "downward" then
    (uniqueDowns.length, numBatches uniqueDowns.length batchSize)
  else (0, 0)

/-- The error raised by CPython for `del batch_paths` (line 588) when the
local `batch_paths` was never assigned in this iteration. -/
def unboundLocalMsg : String :=
  "UnboundLocalError: cannot delete local variable batch_paths"

/-- The per-iteration cleanup block (lines 578-589).  `batch_paths` is
assigned only inside the three valid direction branches (lines 354, 416,
472), so for any other direction the unconditional `del batch_paths`
raises `UnboundLocalError`. -/
def cleanupStep (direction : String) : Except String Unit :=
  if direction = "both" ∨ direction = "upward" ∨ direction = "downward" then
    Except.ok ()
  else
    Except.error unboundLocalMsg

/-- The unique paths of one direction for one seed node: DFS generation
followed by trie deduplication (lines 269-297 / 305-336, without the
optional `random.sample` step, which only drops raw paths). -/
def uniquePathsFor (shuffle : List String → List String) (node : String)
    (mapping : AdjMap) (minD maxD maxP : Option Int) : List (List String) :=
  (trieOf (generate_paths_dfs shuffle node mapping minD maxD maxP).1).traverse []

/-- One iteration of the per-class loop of `sample_and_combine_paths`:
generate per-direction unique paths (skipped for directions that do not
request them), run the combination stage, and run the cleanup block.
Returns the logged statistics and the cleanup outcome. -/
def processNode (shuffle : List String → List String) (c2p p2c : AdjMap)
    (direction node : String) (minD maxD maxP : Option Int) (batchSize : Nat) :
    NodeResult × Except String Unit :=
  let uu := if direction = "upward" ∨ direction = "both" then
      uniquePathsFor shuffle node c2p minD maxD maxP else []
  let ud := if direction = "downward" ∨ direction = "both" then
      uniquePathsFor shuffle node p2c minD maxD maxP else []
  let cb := combineStage direction uu ud batchSize
  (⟨cb.1, cb.2⟩, cleanupStep direction)

/-- The `for idx, (node, count) in enumerate(...)` loop over the selected
classes: an uncaught exception in one iteration aborts the whole run
(no surrounding try/except), so processing stops at the first error. -/
def processClasses (shuffle : List String → List String) (c2p p2c : AdjMap)
    (direction : String) (nodes : List String) (minD maxD maxP : Option Int)
    (batchSize : Nat) : Except String (List NodeResult) :=
  match nodes with
  | [] => Except.ok []
  | n :: rest =>
    match processNode shuffle c2p p2c direction n minD maxD maxP batchSize with
    | (r, Except.ok _) =>
      (processClasses shuffle c2p p2c direction rest minD maxD maxP batchSize).map
        (fun rs => r :: rs)
    | (_, Except.error e) => Except.error e

/-- Two mappings with the same keys in the same order whose value lists are
pointwise permutations of each other (the only way `random.shuffle` can
change the adjacency mapping). -/
def mapPermRel (m m2 : AdjMap) : Prop :=
  List.Forall₂ (fun a b => a.1 = b.1 ∧ a.2.Perm b.2) m m2

/-- Termination potential of one DFS stack frame: exponential in how much
room the frame's path has left before reaching the node-universe bound `N`,
with base `B + 1` dominating the branching factor `B`. -/
def framePot (B N : Nat) (f : String × List String) : Nat :=
  (B + 1) ^ (N + 1 - f.2.length)

/-- Termination measure of a DFS stack: the sum of its frames' potentials.
Each loop iteration strictly decreases it. -/
def stackMeasure (B N : Nat) (stack : List (String × List String)) : Nat :=
  (stack.map (framePot B N)).sum

/-- The adjacency mapping of the end-to-end examples in the specification,
already inverted to the downward direction:
`{"A": ["B","C"], "B": ["D"], "C": ["D"]}`. -/
def exMapC1 : AdjMap := [("A", ["B", "C"]), ("B", ["D"]), ("C", ["D"])]

/-! ### Association-list lemmas -/

theorem lookupA_mem {m : AdjMap} {k : String} {v : List String}
    (h : lookupA m k = some v) : (k, v) ∈ m := by
  induction m with
  | nil => simp [lookupA] at h
  | cons kv rest ih =>
    obtain ⟨k0, v0⟩ := kv
    by_cases hk : k0 = k
    · subst hk
      simp [lookupA] at h
      simp [h]
    · simp [lookupA, hk] at h
      exact List.mem_cons_of_mem _ (ih h)

theorem updateA_map_fst (m : AdjMap) (k : String) (v : List String) :
    (updateA m k v).map Prod.fst = m.map Prod.fst := by
  induction m with
  | nil => rfl
  | cons kv rest ih =>
    simp only [updateA, List.map_cons] at *
    by_cases hk : kv.1 = k
    · simp [hk, ih]
    · simp [hk, ih]

theorem updateA_eq_self {m : AdjMap} {k : String} (v : List String)
    (h : k ∉ m.map Prod.fst) : updateA m k v = m := by
  induction m with
  | nil => rfl
  | cons kv rest ih =>
    simp only [List.map_cons, List.mem_cons] at h
    push_neg at h
    simp only [updateA, List.map_cons]
    rw [if_neg (fun hc => h.1 hc.symm)]
    simp only [updateA] at ih
    rw [ih h.2]

theorem getD_eq_cons {o : Option (List String)} {a : String} {l : List String}
    (h : o.getD [] = a :: l) : o = some (a :: l) := by
  cases o with
  | none => simp at h
  | some v => simpa using congrArg some h

/-! ### Truthiness of zero bounds (claim C10 groundwork) -/

theorem maxDepthSkip_zero (l : Nat) : maxDepthSkip (some 0) l = maxDepthSkip none l := by
  simp [maxDepthSkip]

theorem maxPathsHit_zero (c : Nat) : maxPathsHit (some 0) c = maxPathsHit none c := by
  simp [maxPathsHit]

theorem dfsLoop_maxD_zero (sh : List String → List String) (minD maxP : Option Int) :
    ∀ (fuel : Nat) (stack : List (String × List String)) (cnt : Nat) (m : AdjMap),
    dfsLoop sh minD (some 0) maxP fuel stack cnt m
      = dfsLoop sh minD none maxP fuel stack cnt m := by
  intro fuel
  induction fuel with
  | zero => intro stack cnt m; rfl
  | succ n ih =>
    intro stack cnt m
    cases stack with
    | nil => rfl
    | cons f rest =>
      obtain ⟨current, path⟩ := f
      simp only [dfsLoop, maxDepthSkip_zero, ih]

theorem dfsLoop_maxP_zero (sh : List String → List String) (minD maxD : Option Int) :
    ∀ (fuel : Nat) (stack : List (String × List String)) (cnt : Nat) (m : AdjMap),
    dfsLoop sh minD maxD (some 0) fuel stack cnt m
      = dfsLoop sh minD maxD none fuel stack cnt m := by
  intro fuel
  induction fuel with
  | zero => intro stack cnt m; rfl
  | succ n ih =>
    intro stack cnt m
    cases stack with
    | nil => rfl
    | cons f rest =>
      obtain ⟨current, path⟩ := f
      simp only [dfsLoop, maxPathsHit_zero, ih]

/-- C10: at the public interface of `generate_paths_dfs`, `max_depth=0` and
`max_paths=0` behave exactly as if the bound were unset (`None`): the guards
test truthiness, so a zero value imposes no depth limit and no path-count
limit. -/
theorem claim_C10 (sh : List String → List String) (node : String) (mapping : AdjMap)
    (minD maxD maxP : Option Int) :
    generate_paths_dfs sh node mapping minD (some 0) maxP
        = generate_paths_dfs sh node mapping minD none maxP
    ∧ generate_paths_dfs sh node mapping minD maxD (some 0)
        = generate_paths_dfs sh node mapping minD maxD none := by
  constructor
  · simp only [generate_paths_dfs, dfsLoop_maxD_zero]
  · simp only [generate_paths_dfs, dfsLoop_maxP_zero]

/-! ### Basic soundness of the DFS loop: cycle-freedom and depth bounds -/

theorem dfsLoop_output_basic (sh : List String → List String)
    (minD maxD maxP : Option Int) :
    ∀ (fuel : Nat) (stack : List (String × List String)) (cnt : Nat) (m : AdjMap)
      (ps : List (List String)) (m2 : AdjMap),
    dfsLoop sh minD maxD maxP fuel stack cnt m = some (ps, m2) →
    (∀ f ∈ stack, (f.2 : List String).Nodup) →
    ∀ p ∈ ps, p.Nodup ∧ minDepthOk minD p.length = true
      ∧ maxDepthSkip maxD p.length = false := by
  intro fuel
  induction fuel with
  | zero => intro stack cnt m ps m2 h; simp [dfsLoop] at h
  | succ n ih =>
    intro stack cnt m ps m2 h hstk
    cases stack with
    | nil =>
      simp only [dfsLoop, Option.some.injEq, Prod.mk.injEq] at h
      obtain ⟨h1, _⟩ := h
      subst h1
      intro p hp
      simp at hp
    | cons f rest =>
      obtain ⟨current, path⟩ := f
      simp only [dfsLoop] at h
      have hrest : ∀ f ∈ rest, (f.2 : List String).Nodup :=
        fun f hf => hstk f (List.mem_cons_of_mem _ hf)
      have hpath : path.Nodup := (hstk (current, path) (List.mem_cons_self _ _))
      split at h
      · -- max_paths break
        obtain ⟨h1, _⟩ := Option.some.injEq _ _ ▸ h
        cases h
        intro p hp
        simp at hp
      · split at h
        · -- max_depth skip
          exact ih rest cnt m ps m2 h hrest
        · rename_i hskip
          split at h
          · -- complete path
            rename_i hadj
            split at h
            · rename_i hmin
              rw [Option.map_eq_some'] at h
              obtain ⟨⟨ps0, m0⟩, hrec, heq⟩ := h
              obtain ⟨hps, _⟩ := Prod.mk.injEq _ _ _ _ ▸ heq
              subst hps
              intro p hp
              rcases List.mem_cons.mp hp with hp | hp
              · subst hp
                exact ⟨hpath, hmin, Bool.not_eq_true _ ▸ hskip⟩
              · exact ih rest (cnt + 1) m ps0 m0 hrec hrest p hp
            · exact ih rest cnt m ps m2 h hrest
          · -- expand neighbors
            rename_i adjHd adjTl hadj
            refine ih _ cnt _ ps m2 h ?_
            intro f hf
            rcases List.mem_append.mp hf with hf | hf
            · rw [List.mem_reverse] at hf
              obtain ⟨a, ha, haf⟩ := List.mem_map.mp hf
              obtain ⟨_, hnotin⟩ := List.mem_filter.mp ha
              have hnp : a ∉ path := of_decide_eq_true hnotin
              subst haf
              simp only []
              rw [List.nodup_append]
              refine ⟨hpath, List.nodup_singleton a, fun x hx hxa => ?_⟩
              simp only [List.mem_singleton] at hxa
              subst hxa
              exact hnp hx
            · exact hrest f hf

/-- C6: every path yielded by `generate_paths_dfs`, for any adjacency mapping
(cyclic ones included), any shuffle behaviour and any bound settings, contains
no repeated node identifier. -/
theorem claim_C6 (sh : List String → List String) (node : String) (mapping : AdjMap)
    (minD maxD maxP : Option Int) (p : List String)
    (hp : p ∈ (generate_paths_dfs sh node mapping minD maxD maxP).1) : p.Nodup := by
  unfold generate_paths_dfs at hp
  cases h : dfsLoop sh minD maxD maxP (defaultFuel node mapping)
      [(node, [node])] 0 mapping with
  | none => rw [h] at hp; simp at hp
  | some r =>
    obtain ⟨ps, m2⟩ := r
    rw [h] at hp
    exact (dfsLoop_output_basic sh minD maxD maxP _ _ 0 mapping ps m2 h
      (by intro f hf; simp at hf; subst hf; exact List.nodup_singleton node)
      p hp).1

/-- C6 witness: a concrete yielded path with no repeated node. -/
theorem claim_C6_witness :
    ["A", "B"] ∈ (generate_paths_dfs id "A" [("A", ["B"])] none none none).1
    ∧ (["A", "B"] : List String).Nodup :=
  ⟨by decide,
    claim_C6 id "A" [("A", ["B"])] none none none ["A", "B"] (by decide)⟩

/-- C8: every path emitted by `generate_paths_dfs` has node count at least
`min_depth` when `min_depth` is set, and at most `max_depth` when `max_depth`
is set to an effective (nonzero, cf. C10) value: deeper paths are abandoned,
neither extended nor emitted. -/
theorem claim_C8 (sh : List String → List String) (node : String) (mapping : AdjMap)
    (minD maxD maxP : Option Int) (p : List String)
    (hp : p ∈ (generate_paths_dfs sh node mapping minD maxD maxP).1) :
    (∀ md : Int, minD = some md → md ≤ (p.length : Int))
    ∧ (∀ md : Int, maxD = some md → md ≠ 0 → (p.length : Int) ≤ md) := by
  unfold generate_paths_dfs at hp
  cases h : dfsLoop sh minD maxD maxP (defaultFuel node mapping)
      [(node, [node])] 0 mapping with
  | none => rw [h] at hp; simp at hp
  | some r =>
    obtain ⟨ps, m2⟩ := r
    rw [h] at hp
    obtain ⟨-, hmin, hmax⟩ := dfsLoop_output_basic sh minD maxD maxP _ _ 0 mapping ps m2 h
      (by intro f hf; simp at hf; subst hf; exact List.nodup_singleton node) p hp
    constructor
    · intro md hmd
      subst hmd
      simp only [minDepthOk, decide_eq_true_eq] at hmin
      exact hmin
    · intro md hmd hne
      subst hmd
      simp only [maxDepthSkip, Bool.and_eq_false_iff, bne_eq_false_iff_eq,
        decide_eq_false_iff_not] at hmax
      rcases hmax with hmax | hmax
      · exact absurd hmax hne
      · omega

/-- C8 witness: with `min_depth=1` and `max_depth=3` the concrete emitted path
`["A","B"]` satisfies both bounds. -/
theorem claim_C8_witness :
    ["A", "B"] ∈ (generate_paths_dfs id "A" [("A", ["B"])] (some 1) (some 3) none).1
    ∧ ((∀ md : Int, (some 1 : Option Int) = some md → md ≤ ((["A", "B"] : List String).length : Int))
      ∧ (∀ md : Int, (some 3 : Option Int) = some md → md ≠ 0
          → (((["A", "B"] : List String).length : Int) ≤ md))) :=
  ⟨by decide,
    claim_C8 id "A" [("A", ["B"])] (some 1) (some 3) none ["A", "B"] (by decide)⟩

/-! ### Effect of the DFS on the adjacency mapping (claim C4) -/

theorem mapPermRel_refl (m : AdjMap) : mapPermRel m m := by
  induction m with
  | nil => exact List.Forall₂.nil
  | cons kv rest ih => exact List.Forall₂.cons ⟨rfl, List.Perm.refl _⟩ ih

theorem mapPermRel_trans {a b c : AdjMap} (h1 : mapPermRel a b)
    (h2 : mapPermRel b c) : mapPermRel a c := by
  induction h1 generalizing c with
  | nil => cases h2; exact List.Forall₂.nil
  | cons hab _ ih =>
    cases h2 with
    | cons hbc hrest2 =>
      exact List.Forall₂.cons ⟨hab.1.trans hbc.1, hab.2.trans hbc.2⟩ (ih hrest2)

theorem mapPermRel_update {m : AdjMap} {k : String} {adj v : List String}
    (hnd : (m.map Prod.fst).Nodup) (hl : lookupA m k = some adj)
    (hp : adj.Perm v) : mapPermRel m (updateA m k v) := by
  induction m with
  | nil => simp [lookupA] at hl
  | cons kv rest ih =>
    obtain ⟨k0, v0⟩ := kv
    simp only [List.map_cons, List.nodup_cons] at hnd
    by_cases hk : k0 = k
    · subst hk
      simp [lookupA] at hl
      subst hl
      simp only [updateA, List.map_cons, if_pos rfl]
      refine List.Forall₂.cons ⟨rfl, hp⟩ ?_
      have : updateA rest k0 v = rest := updateA_eq_self v hnd.1
      simp only [updateA] at this
      rw [this]
      exact mapPermRel_refl rest
    · simp only [lookupA, if_neg hk] at hl
      simp only [updateA, List.map_cons, if_neg hk]
      exact List.Forall₂.cons ⟨rfl, List.Perm.refl _⟩ (ih hnd.2 hl)

theorem dfsLoop_mapPerm (sh : List String → List String) (minD maxD maxP : Option Int)
    (hsh : ∀ l, (sh l).Perm l) :
    ∀ (fuel : Nat) (stack : List (String × List String)) (cnt : Nat) (m : AdjMap)
      (ps : List (List String)) (m2 : AdjMap),
    dfsLoop sh minD maxD maxP fuel stack cnt m = some (ps, m2) →
    (m.map Prod.fst).Nodup →
    mapPermRel m m2 := by
  intro fuel
  induction fuel with
  | zero => intro stack cnt m ps m2 h; simp [dfsLoop] at h
  | succ n ih =>
    intro stack cnt m ps m2 h hnd
    cases stack with
    | nil =>
      simp only [dfsLoop, Option.some.injEq, Prod.mk.injEq] at h
      rw [← h.2]
      exact mapPermRel_refl m
    | cons f rest =>
      obtain ⟨current, path⟩ := f
      simp only [dfsLoop] at h
      split at h
      · simp only [Option.some.injEq, Prod.mk.injEq] at h
        rw [← h.2]
        exact mapPermRel_refl m
      · split at h
        · exact ih rest cnt m ps m2 h hnd
        · split at h
          · split at h
            · rw [Option.map_eq_some'] at h
              obtain ⟨⟨ps0, m0⟩, hrec, heq⟩ := h
              have hm2 : m0 = m2 := congrArg Prod.snd heq
              rw [← hm2]
              exact ih rest (cnt + 1) m ps0 m0 hrec hnd
            · exact ih rest cnt m ps m2 h hnd
          · rename_i adjHd adjTl hadj
            have hlk : lookupA m current = some (adjHd :: adjTl) := getD_eq_cons hadj
            have hstep : mapPermRel m (updateA m current (sh (adjHd :: adjTl))) :=
              mapPermRel_update hnd hlk (hsh (adjHd :: adjTl)).symm
            refine mapPermRel_trans hstep (ih _ cnt _ ps m2 h ?_)
            rw [updateA_map_fst]
            exact hnd

/-- C4 counterexample: `random.shuffle(adjacent_nodes)` shuffles the very
list object stored in the dict, so a run whose shuffle reverses `["B","C"]`
(a possible outcome of `random.shuffle`) leaves the mapping with `"A"`
bound to `["C","B"]` --- not the same ordered list as before the call. -/
theorem claim_C4_counterexample :
    (generate_paths_dfs List.reverse "A" [("A", ["B", "C"])] none none none).2
      ≠ [("A", ["B", "C"])] := by decide

/-- C4 amended: running `generate_paths_dfs` to exhaustion preserves the
mapping's key set and order, and maps every key to a permutation of its
original neighbor list (the in-place shuffles can reorder, but never add,
drop or duplicate, neighbors).  The claim's "same ordered list" is false:
see the counterexample. -/
theorem claim_C4 (sh : List String → List String) (node : String) (mapping : AdjMap)
    (minD maxD maxP : Option Int) (hsh : ∀ l, (sh l).Perm l)
    (hnd : (mapping.map Prod.fst).Nodup) :
    mapPermRel mapping (generate_paths_dfs sh node mapping minD maxD maxP).2 := by
  unfold generate_paths_dfs
  cases h : dfsLoop sh minD maxD maxP (defaultFuel node mapping)
      [(node, [node])] 0 mapping with
  | none => exact mapPermRel_refl mapping
  | some r =>
    obtain ⟨ps, m2⟩ := r
    exact dfsLoop_mapPerm sh minD maxD maxP hsh _ _ 0 mapping ps m2 h hnd

/-! ### Termination of the DFS loop (claim C7) -/

theorem length_le_maxAdjLen {m : AdjMap} {kv : String × List String}
    (h : kv ∈ m) : kv.2.length ≤ maxAdjLen m := by
  induction m with
  | nil => simp at h
  | cons kv0 rest ih =>
    have hm : maxAdjLen (kv0 :: rest) = max kv0.2.length (maxAdjLen rest) := rfl
    rcases List.mem_cons.mp h with h | h
    · rw [h, hm]; exact le_max_left _ _
    · rw [hm]; exact le_trans (ih h) (le_max_right _ _)

theorem length_le_card_of_nodup_subset {l : List String} {S : Finset String}
    (hnd : l.Nodup) (hsub : ∀ x ∈ l, x ∈ S) : l.length ≤ S.card := by
  have h1 : l.toFinset.card = l.length := List.toFinset_card_of_nodup hnd
  have h2 : l.toFinset ⊆ S := fun x hx => hsub x (List.mem_toFinset.mp hx)
  rw [← h1]
  exact Finset.card_le_card h2

/-- One unit of fuel per iteration suffices when the fuel exceeds the stack
measure: the loop of `generate_paths_dfs` halts, even on cyclic mappings,
because the in-path membership test keeps every frame's path duplicate-free
inside the finite node universe `S`. -/
theorem dfsLoop_isSome_of_measure_lt (sh : List String → List String)
    (minD maxD maxP : Option Int) (hsh : ∀ l, (sh l).Perm l)
    (S : Finset String) (B N : Nat) (hN : S.card ≤ N) :
    ∀ (fuel : Nat) (stack : List (String × List String)) (cnt : Nat) (m : AdjMap),
    (∀ f ∈ stack, (f.2 : List String).Nodup ∧ ∀ x ∈ f.2, x ∈ S) →
    (∀ kv ∈ m, (kv.2 : List String).length ≤ B ∧ ∀ x ∈ kv.2, x ∈ S) →
    stackMeasure B N stack < fuel →
    (dfsLoop sh minD maxD maxP fuel stack cnt m).isSome := by
  intro fuel
  induction fuel with
  | zero => intro stack cnt m _ _ hlt; omega
  | succ n ih =>
    intro stack cnt m hstk hm hlt
    cases stack with
    | nil => simp [dfsLoop]
    | cons f rest =>
      obtain ⟨current, path⟩ := f
      have hpotpos : 0 < framePot B N (current, path) :=
        Nat.pos_pow_of_pos _ (Nat.succ_pos B)
      have hmeas : stackMeasure B N ((current, path) :: rest)
          = framePot B N (current, path) + stackMeasure B N rest := by
        simp [stackMeasure]
      have hrest : ∀ f ∈ rest, (f.2 : List String).Nodup ∧ ∀ x ∈ f.2, x ∈ S :=
        fun f hf => hstk f (List.mem_cons_of_mem _ hf)
      have hpath := hstk (current, path) (List.mem_cons_self _ _)
      simp only [dfsLoop]
      split
      · rfl
      · split
        · exact ih rest cnt m hrest hm (by omega)
        · split
          · split
            · have := ih rest (cnt + 1) m hrest hm (by omega)
              obtain ⟨r, hr⟩ := Option.isSome_iff_exists.mp this
              rw [hr]
              rfl
            · exact ih rest cnt m hrest hm (by omega)
          · rename_i adjHd adjTl hadj
            have hlk : lookupA m current = some (adjHd :: adjTl) := getD_eq_cons hadj
            have hadjmem : (current, adjHd :: adjTl) ∈ m := lookupA_mem hlk
            obtain ⟨hadjlen, hadjsub⟩ := hm _ hadjmem
            have hperm := hsh (adjHd :: adjTl)
            -- invariants for the new mapping
            have hm2 : ∀ kv ∈ updateA m current (sh (adjHd :: adjTl)),
                (kv.2 : List String).length ≤ B ∧ ∀ x ∈ kv.2, x ∈ S := by
              intro kv hkv
              obtain ⟨kv0, hkv0, hkveq⟩ := List.mem_map.mp hkv
              by_cases hc : kv0.1 = current
              · rw [if_pos hc] at hkveq
                rw [← hkveq]
                refine ⟨?_, ?_⟩
                · simp only []
                  rw [hperm.length_eq]
                  exact hadjlen
                · intro x hx
                  exact hadjsub x (hperm.mem_iff.mp hx)
              · rw [if_neg hc] at hkveq
                rw [← hkveq]
                exact hm kv0 hkv0
            -- invariants for the new stack
            set filtered := (sh (adjHd :: adjTl)).filter (fun a => decide (a ∉ path)) with hfil
            set pushed := filtered.map (fun a => (a, path ++ [a])) with hpush
            have hstk2 : ∀ f ∈ pushed.reverse ++ rest,
                (f.2 : List String).Nodup ∧ ∀ x ∈ f.2, x ∈ S := by
              intro f hf
              rcases List.mem_append.mp hf with hf | hf
              · rw [List.mem_reverse] at hf
                obtain ⟨a, ha, haf⟩ := List.mem_map.mp hf
                obtain ⟨hash, hnotin⟩ := List.mem_filter.mp ha
                have hnp : a ∉ path := of_decide_eq_true hnotin
                have haS : a ∈ S := hadjsub a (hperm.mem_iff.mp hash)
                rw [← haf]
                constructor
                · simp only []
                  rw [List.nodup_append]
                  refine ⟨hpath.1, List.nodup_singleton a, fun x hx hxa => ?_⟩
                  simp only [List.mem_singleton] at hxa
                  subst hxa
                  exact hnp hx
                · intro x hx
                  simp only [List.mem_append, List.mem_singleton] at hx
                  rcases hx with hx | hx
                  · exact hpath.2 x hx
                  · subst hx; exact haS
              · exact hrest f hf
            -- the measure strictly decreases
            have hlen : path.length ≤ N :=
              le_trans (length_le_card_of_nodup_subset hpath.1 hpath.2) hN
            have hexp : N + 1 - path.length = (N - path.length) + 1 := by omega
            have hpot : framePot B N (current, path)
                = B * (B + 1) ^ (N - path.length) + (B + 1) ^ (N - path.length) := by
              simp only [framePot, hexp, pow_succ]
              ring
            have hmeas2 : stackMeasure B N (pushed.reverse ++ rest)
                = filtered.length * (B + 1) ^ (N - path.length)
                  + stackMeasure B N rest := by
              simp only [stackMeasure, List.map_append, List.sum_append,
                List.map_reverse, List.sum_reverse, hpush, List.map_map]
              congr 1
              have : (filtered.map (framePot B N ∘ fun a => (a, path ++ [a])))
                  = filtered.map (fun _ => (B + 1) ^ (N - path.length)) := by
                apply List.map_congr_left
                intro a _
                simp only [Function.comp, framePot, List.length_append,
                  List.length_singleton]
                congr 1
                omega
              rw [this, List.map_const', List.sum_replicate, smul_eq_mul]
            have hfillen : filtered.length ≤ B := by
              calc filtered.length ≤ (sh (adjHd :: adjTl)).length :=
                      List.length_filter_le _ _
                _ = (adjHd :: adjTl).length := hperm.length_eq
                _ ≤ B := hadjlen
            refine ih _ cnt _ hstk2 hm2 ?_
            rw [hmeas2]
            have hmul : filtered.length * (B + 1) ^ (N - path.length)
                ≤ B * (B + 1) ^ (N - path.length) :=
              Nat.mul_le_mul_right _ hfillen
            have hpow1 : 1 ≤ (B + 1) ^ (N - path.length) :=
              Nat.one_le_pow _ _ (Nat.succ_pos B)
            rw [hmeas, hpot] at hlt
            omega

/-- The concrete fuel `defaultFuel` dominates the initial stack measure. -/
theorem dfsLoop_defaultFuel_isSome (sh : List String → List String)
    (minD maxD maxP : Option Int) (hsh : ∀ l, (sh l).Perm l)
    (node : String) (mapping : AdjMap) :
    (dfsLoop sh minD maxD maxP (defaultFuel node mapping)
      [(node, [node])] 0 mapping).isSome := by
  apply dfsLoop_isSome_of_measure_lt sh minD maxD maxP hsh
    (uniList node mapping).toFinset (maxAdjLen mapping)
    (uniList node mapping).dedup.length
  · rw [List.card_toFinset]
  · intro f hf
    simp only [List.mem_singleton] at hf
    subst hf
    refine ⟨List.nodup_singleton node, ?_⟩
    intro x hx
    simp only [List.mem_singleton] at hx
    rw [hx, List.mem_toFinset]
    exact List.mem_cons_self node _
  · intro kv hkv
    refine ⟨length_le_maxAdjLen hkv, ?_⟩
    intro x hx
    rw [List.mem_toFinset]
    refine List.mem_cons_of_mem _ ?_
    rw [List.mem_flatMap]
    exact ⟨kv, hkv, List.mem_cons_of_mem _ hx⟩
  · simp only [stackMeasure, List.map_cons, List.map_nil, List.sum_cons,
      List.sum_nil, framePot, defaultFuel, List.length_singleton]
    have : (uniList node mapping).dedup.length + 1 - 1
        = (uniList node mapping).dedup.length := by omega
    rw [this]
    omega

/-- C7: for every finite adjacency mapping --- cyclic ones included --- and
every start node, bound settings and shuffle behaviour, the DFS `while` loop
terminates within `defaultFuel` steps and `generate_paths_dfs` returns its
(finite) result. -/
theorem claim_C7 (sh : List String → List String) (node : String) (mapping : AdjMap)
    (minD maxD maxP : Option Int) (hsh : ∀ l, (sh l).Perm l) :
    ∃ ps m2, dfsLoop sh minD maxD maxP (defaultFuel node mapping)
        [(node, [node])] 0 mapping = some (ps, m2)
      ∧ generate_paths_dfs sh node mapping minD maxD maxP = (ps, m2) := by
  obtain ⟨r, hr⟩ := Option.isSome_iff_exists.mp
    (dfsLoop_defaultFuel_isSome sh minD maxD maxP hsh node mapping)
  obtain ⟨ps, m2⟩ := r
  exact ⟨ps, m2, hr, by simp [generate_paths_dfs, hr]⟩

/-- C7 witness: the loop terminates on a concrete cyclic mapping. -/
theorem claim_C7_witness :
    ∃ ps m2, dfsLoop id none none none
        (defaultFuel "A" [("A", ["B"]), ("B", ["A"])])
        [("A", ["A"])] 0 [("A", ["B"]), ("B", ["A"])] = some (ps, m2)
      ∧ generate_paths_dfs id "A" [("A", ["B"]), ("B", ["A"])] none none none
          = (ps, m2) :=
  claim_C7 id "A" [("A", ["B"]), ("B", ["A"])] none none none
    (fun l => List.Perm.refl l)

/-! ### Extended soundness: emitted paths are complete chains from the seed -/

theorem mapPermRel_keys {a b : AdjMap} (h : mapPermRel a b) :
    b.map Prod.fst = a.map Prod.fst := by
  induction h with
  | nil => rfl
  | cons hxy _ ih => simp [ih, hxy.1]

theorem mapPermRel_lookup {a b : AdjMap} (h : mapPermRel a b) (k : String) :
    (lookupA a k = none ∧ lookupA b k = none)
    ∨ ∃ v w, lookupA a k = some v ∧ lookupA b k = some w ∧ v.Perm w := by
  induction h with
  | nil => exact Or.inl ⟨rfl, rfl⟩
  | cons hxy hrest ih =>
    rename_i x y l1 l2
    obtain ⟨k1, v1⟩ := x
    obtain ⟨k2, v2⟩ := y
    obtain ⟨hk, hv⟩ := hxy
    simp only [] at hk
    by_cases hkk : k1 = k
    · refine Or.inr ⟨v1, v2, ?_, ?_, hv⟩
      · simp [lookupA, hkk]
      · simp [lookupA, ← hk, hkk]
    · have hkk2 : k2 ≠ k := fun hc => hkk (hk.trans hc)
      simp only [lookupA, if_neg hkk, if_neg hkk2]
      exact ih

theorem mapPermRel_getD_mem {a b : AdjMap} (h : mapPermRel a b) {k x : String}
    (hx : x ∈ (lookupA b k).getD []) : x ∈ (lookupA a k).getD [] := by
  rcases mapPermRel_lookup h k with ⟨h1, h2⟩ | ⟨v, w, h1, h2, hp⟩
  · rw [h2] at hx; simp at hx
  · rw [h2] at hx
    rw [h1]
    exact hp.mem_iff.mpr hx

theorem mapPermRel_getD_nil {a b : AdjMap} (h : mapPermRel a b) {k : String}
    (hk : (lookupA b k).getD [] = []) : (lookupA a k).getD [] = [] := by
  rcases mapPermRel_lookup h k with ⟨h1, h2⟩ | ⟨v, w, h1, h2, hp⟩
  · rw [h1]; rfl
  · rw [h2] at hk
    simp only [Option.getD_some] at hk
    subst hk
    rw [h1]
    simpa using hp.eq_nil

theorem dfsLoop_output_ext (sh : List String → List String)
    (minD maxD maxP : Option Int) (hsh : ∀ l, (sh l).Perm l)
    (morig : AdjMap) (start : String) (hnd : (morig.map Prod.fst).Nodup) :
    ∀ (fuel : Nat) (stack : List (String × List String)) (cnt : Nat) (m : AdjMap)
      (ps : List (List String)) (m2 : AdjMap),
    dfsLoop sh minD maxD maxP fuel stack cnt m = some (ps, m2) →
    mapPermRel morig m →
    (∀ f ∈ stack, (f.2 : List String) ≠ [] ∧ f.2.getLast? = some f.1
      ∧ f.2.head? = some start
      ∧ List.Chain' (fun a b => b ∈ (lookupA morig a).getD []) f.2) →
    ∀ p ∈ ps, p ≠ [] ∧ p.head? = some start
      ∧ List.Chain' (fun a b => b ∈ (lookupA morig a).getD []) p
      ∧ ∀ x, p.getLast? = some x → (lookupA morig x).getD [] = [] := by
  intro fuel
  induction fuel with
  | zero => intro stack cnt m ps m2 h; simp [dfsLoop] at h
  | succ n ih =>
    intro stack cnt m ps m2 h hrel hstk
    cases stack with
    | nil =>
      simp only [dfsLoop, Option.some.injEq, Prod.mk.injEq] at h
      obtain ⟨h1, _⟩ := h
      subst h1
      intro p hp
      simp at hp
    | cons f rest =>
      obtain ⟨current, path⟩ := f
      have hrest : ∀ f ∈ rest, (f.2 : List String) ≠ [] ∧ f.2.getLast? = some f.1
          ∧ f.2.head? = some start
          ∧ List.Chain' (fun a b => b ∈ (lookupA morig a).getD []) f.2 :=
        fun f hf => hstk f (List.mem_cons_of_mem _ hf)
      obtain ⟨hne, hlast, hhead, hchain⟩ :=
        hstk (current, path) (List.mem_cons_self _ _)
      simp only [dfsLoop] at h
      split at h
      · obtain ⟨h1, _⟩ := Option.some.injEq _ _ ▸ h
        cases h
        intro p hp
        simp at hp
      · split at h
        · exact ih rest cnt m ps m2 h hrel hrest
        · split at h
          · rename_i hadj
            split at h
            · rw [Option.map_eq_some'] at h
              obtain ⟨⟨ps0, m0⟩, hrec, heq⟩ := h
              obtain ⟨hps, _⟩ := Prod.mk.injEq _ _ _ _ ▸ heq
              subst hps
              intro p hp
              rcases List.mem_cons.mp hp with hp | hp
              · subst hp
                refine ⟨hne, hhead, hchain, ?_⟩
                intro x hx
                rw [hlast, Option.some.injEq] at hx
                subst hx
                exact mapPermRel_getD_nil hrel hadj
              · exact ih rest (cnt + 1) m ps0 m0 hrec hrel hrest p hp
            · exact ih rest cnt m ps m2 h hrel hrest
          · rename_i adjHd adjTl hadj
            have hlk : lookupA m current = some (adjHd :: adjTl) := getD_eq_cons hadj
            have hndm : (m.map Prod.fst).Nodup := by
              rw [mapPermRel_keys hrel]
              exact hnd
            have hstep : mapPermRel m (updateA m current (sh (adjHd :: adjTl))) :=
              mapPermRel_update hndm hlk (hsh _).symm
            have hrel2 := mapPermRel_trans hrel hstep
            refine ih _ cnt _ ps m2 h hrel2 ?_
            intro f hf
            rcases List.mem_append.mp hf with hf | hf
            · rw [List.mem_reverse] at hf
              obtain ⟨a, ha, haf⟩ := List.mem_map.mp hf
              obtain ⟨hash, _⟩ := List.mem_filter.mp ha
              have hamem : a ∈ (lookupA morig current).getD [] := by
                apply mapPermRel_getD_mem hrel
                rw [hadj]
                exact (hsh _).mem_iff.mp hash
              subst haf
              refine ⟨by simp, ?_, ?_, ?_⟩
              · simp only []
                exact List.getLast?_concat _
              · simp only []
                cases path with
                | nil => exact absurd rfl hne
                | cons p0 pt =>
                  simp only [List.cons_append, List.head?_cons] at hhead ⊢
                  exact hhead
              · simp only []
                rw [List.chain'_append]
                refine ⟨hchain, List.chain'_singleton a, ?_⟩
                intro x hx y hy
                rw [hlast] at hx
                simp only [Option.mem_def, Option.some.injEq] at hx
                simp only [List.head?_cons, Option.mem_def, Option.some.injEq] at hy
                subst hx
                subst hy
                exact hamem
            · exact hrest f hf

/-- C4 witness: the amended statement at a concrete mapping and identity
shuffle. -/
theorem claim_C4_witness :
    mapPermRel [("A", ["B"])]
      ((generate_paths_dfs id "A" [("A", ["B"])] none none none).2) :=
  claim_C4 id "A" [("A", ["B"])] none none none
    (fun l => List.Perm.refl l) (by decide)

/-! ### Claim C1: the spec's depth-2 downward example -/

/-- C1 counterexample: on the inverted example mapping, `generate_paths_dfs`
from `"A"` with `max_depth=2` yields no paths at all (not `["A","B"]` and
`["A","C"]`): `"B"` and `"C"` have adjacency entries, so the length-2
prefixes are never "complete", and the complete paths through `"D"` exceed
the depth bound and are abandoned.  The unique count after trie
deduplication is therefore `0`, not `2`. -/
theorem claim_C1_counterexample :
    (generate_paths_dfs id "A" exMapC1 none (some 2) none).1 = []
    ∧ ["A", "B"] ∉ (generate_paths_dfs id "A" exMapC1 none (some 2) none).1
    ∧ ((trieOf (generate_paths_dfs id "A" exMapC1 none (some 2) none).1).traverse
        []).length = 0 := by
  refine ⟨by decide, by decide, by decide⟩

/-- C1 amended: for the adjacency mapping
`{"A": ["B","C"], "B": ["D"], "C": ["D"]}`, running `generate_paths_dfs`
from `"A"` with `max_depth=2` (min_depth and max_paths unset) yields no
paths whatever permutation `random.shuffle` produces --- `["A","B"]` and
`["A","C"]` are not complete paths since their frontier nodes have
adjacency entries, and every complete path has length 3 and is abandoned
--- so the unique downward path count after trie deduplication is 0. -/
theorem claim_C1 (sh : List String → List String) (hsh : ∀ l, (sh l).Perm l) :
    (generate_paths_dfs sh "A" exMapC1 none (some 2) none).1 = []
    ∧ ((trieOf (generate_paths_dfs sh "A" exMapC1 none (some 2) none).1).traverse
        []).length = 0 := by
  have hout : (generate_paths_dfs sh "A" exMapC1 none (some 2) none).1 = [] := by
    rw [List.eq_nil_iff_forall_not_mem]
    intro p hp
    revert hp
    unfold generate_paths_dfs
    cases h : dfsLoop sh none (some 2) none (defaultFuel "A" exMapC1)
        [("A", ["A"])] 0 exMapC1 with
    | none => intro hp; simp at hp
    | some r =>
      obtain ⟨ps, m2⟩ := r
      intro hp
      have hp' : p ∈ ps := hp
      obtain ⟨-, -, hmax⟩ := dfsLoop_output_basic sh none (some 2) none _ _ 0
        exMapC1 ps m2 h
        (by intro f hf; simp at hf; subst hf; exact List.nodup_singleton _) p hp'
      obtain ⟨hne, hhead, hchain, hlastcomp⟩ := dfsLoop_output_ext sh none (some 2)
        none hsh exMapC1 "A" (by decide) _ _ 0 exMapC1 ps m2 h
        (mapPermRel_refl exMapC1)
        (by
          intro f hf
          simp only [List.mem_singleton] at hf
          subst hf
          exact ⟨by simp, rfl, rfl, List.chain'_singleton _⟩) p hp'
      have hlen : p.length ≤ 2 := by
        simp only [maxDepthSkip, Bool.and_eq_false_iff, bne_eq_false_iff_eq,
          decide_eq_false_iff_not, not_lt] at hmax
        rcases hmax with hmax | hmax
        · exact absurd hmax (by norm_num)
        · exact_mod_cast Nat.cast_le.mp (by exact_mod_cast hmax)
      cases p with
      | nil => exact hne rfl
      | cons p0 pt =>
        have hp0 : p0 = "A" := by
          simpa using hhead
        subst hp0
        cases pt with
        | nil =>
          have := hlastcomp "A" rfl
          simp [lookupA, exMapC1] at this
        | cons p1 pt2 =>
          cases pt2 with
          | nil =>
            have hp1 : p1 ∈ (lookupA exMapC1 "A").getD [] := by
              have := List.chain'_cons.mp hchain
              exact this.1
            have hlast2 := hlastcomp p1 rfl
            simp only [lookupA, exMapC1, Option.getD_some] at hp1
            norm_num at hp1
            rcases hp1 with hp1 | hp1 <;> subst hp1 <;>
              simp [lookupA, exMapC1] at hlast2
          | cons p2 pt3 =>
            simp at hlen
  refine ⟨hout, ?_⟩
  rw [hout]
  rfl

/-- C1 witness: the amended statement at the identity shuffle. -/
theorem claim_C1_witness :
    (generate_paths_dfs id "A" exMapC1 none (some 2) none).1 = []
    ∧ ((trieOf (generate_paths_dfs id "A" exMapC1 none (some 2) none).1).traverse
        []).length = 0 :=
  claim_C1 id (fun l => List.Perm.refl l)

/-! ### Claim C2: the direction-"both" combination -/

/-- C2: in direction mode "both", the combination loop produces exactly
`|U| * |D|` combined paths, and --- because every unique upward/downward
path is a duplicate-free sequence starting at the seed --- every combined
path `reverse(U)[:-1] ++ D` contains the seed exactly once, at index
`|U| - 1`. -/
theorem claim_C2 (seed : String) (ups downs : List (List String))
    (hu : ∀ u ∈ ups, u.head? = some seed ∧ u.Nodup)
    (hd : ∀ d ∈ downs, d.head? = some seed ∧ d.Nodup) :
    (combineBoth ups downs).length = ups.length * downs.length
    ∧ (∀ c ∈ combineBoth ups downs, c.count seed = 1)
    ∧ ∀ u ∈ ups, ∀ d ∈ downs,
        (u.reverse.dropLast ++ d).indexOf seed = u.length - 1 := by
  refine ⟨?_, ?_, ?_⟩
  · simp only [combineBoth, List.length_flatMap]
    have hmc : (ups.map (List.length ∘ fun u =>
        List.map (fun d => u.reverse.dropLast ++ d) downs))
        = ups.map (fun _ => downs.length) := by
      apply List.map_congr_left
      intro u _
      simp [Function.comp]
    rw [hmc, List.map_const', List.sum_replicate, smul_eq_mul]
  · intro c hc
    obtain ⟨u, humem, hcd⟩ := List.mem_flatMap.mp hc
    obtain ⟨d, hdmem, hceq⟩ := List.mem_map.mp hcd
    obtain ⟨huh, hun⟩ := hu u humem
    obtain ⟨hdh, hdn⟩ := hd d hdmem
    cases u with
    | nil => simp at huh
    | cons u0 tu =>
      cases d with
      | nil => simp at hdh
      | cons d0 td =>
        simp only [List.head?_cons, Option.some.injEq] at huh hdh
        have huh2 : seed = u0 := huh.symm
        have hdh2 : seed = d0 := hdh.symm
        subst huh2
        subst hdh2
        obtain ⟨hsu, htu⟩ := List.nodup_cons.mp hun
        obtain ⟨hsd, htd⟩ := List.nodup_cons.mp hdn
        rw [← hceq]
        rw [List.reverse_cons, List.dropLast_concat, List.count_append,
          List.count_cons_self]
        have h1 : List.count seed tu.reverse = 0 :=
          List.count_eq_zero.mpr (fun hm => hsu (List.mem_reverse.mp hm))
        have h2 : List.count seed td = 0 := List.count_eq_zero.mpr hsd
        rw [h1, h2]
  · intro u humem d hdmem
    obtain ⟨huh, hun⟩ := hu u humem
    obtain ⟨hdh, hdn⟩ := hd d hdmem
    cases u with
    | nil => simp at huh
    | cons u0 tu =>
      cases d with
      | nil => simp at hdh
      | cons d0 td =>
        simp only [List.head?_cons, Option.some.injEq] at huh hdh
        have huh2 : seed = u0 := huh.symm
        have hdh2 : seed = d0 := hdh.symm
        subst huh2
        subst hdh2
        obtain ⟨hsu, htu⟩ := List.nodup_cons.mp hun
        rw [List.reverse_cons, List.dropLast_concat,
          List.indexOf_append_of_not_mem
            (fun hm => hsu (List.mem_reverse.mp hm)),
          List.indexOf_cons_self, List.length_reverse]
        simp

/-- C2 witness: the combination property at concrete one-element unique
path sets. -/
theorem claim_C2_witness :
    (combineBoth [["S", "A"]] [["S", "B"]]).length
        = ([["S", "A"]] : List (List String)).length
          * ([["S", "B"]] : List (List String)).length
    ∧ (∀ c ∈ combineBoth [["S", "A"]] [["S", "B"]], c.count "S" = 1)
    ∧ ∀ u ∈ ([["S", "A"]] : List (List String)),
        ∀ d ∈ ([["S", "B"]] : List (List String)),
        (u.reverse.dropLast ++ d).indexOf "S" = u.length - 1 :=
  claim_C2 "S" [["S", "A"]] [["S", "B"]] (by decide) (by decide)

/-! ### Claim C9: the relation inverter -/

theorem lookupA_eq_none_iff {m : AdjMap} {k : String} :
    lookupA m k = none ↔ k ∉ m.map Prod.fst := by
  induction m with
  | nil => simp [lookupA]
  | cons kv rest ih =>
    obtain ⟨k0, v0⟩ := kv
    simp only [lookupA, List.map_cons, List.mem_cons]
    by_cases hk : k0 = k
    · subst hk
      simp
    · rw [if_neg hk, ih]
      constructor
      · intro h hmem
        rcases hmem with h1 | h1
        · exact hk h1.symm
        · exact h h1
      · intro h h1
        exact h (Or.inr h1)

theorem addChild_cons_ne {k p c : String} {vs : List String} {acc : AdjMap}
    (h : k ≠ p) : addChild ((k, vs) :: acc) p c = (k, vs) :: addChild acc p c := by
  unfold addChild
  have hl : lookupA ((k, vs) :: acc) p = lookupA acc p := by
    simp [lookupA, h]
  rw [hl]
  cases hcase : lookupA acc p with
  | some cs => simp [updateA, h]
  | none => simp

theorem addChild_cons_self {p c : String} {vs : List String} {acc : AdjMap}
    (h : p ∉ acc.map Prod.fst) :
    addChild ((p, vs) :: acc) p c
      = (p, if c ∈ vs then vs else vs ++ [c]) :: acc := by
  unfold addChild
  have hl : lookupA ((p, vs) :: acc) p = some vs := by simp [lookupA]
  rw [hl]
  simp only [updateA, List.map_cons, if_pos rfl]
  congr 1
  exact updateA_eq_self _ h

theorem mem_edgesOf_fst {m : AdjMap} {e : String × String} (h : e ∈ edgesOf m) :
    e.1 ∈ m.map Prod.fst := by
  obtain ⟨kv, hkv, he⟩ := List.mem_flatMap.mp h
  obtain ⟨v, hv, hrfl⟩ := List.mem_map.mp he
  rw [← hrfl]
  exact List.mem_map.mpr ⟨kv, hkv, rfl⟩

theorem edgesOf_addChild {acc : AdjMap} (p c : String)
    (hkeys : (acc.map Prod.fst).Nodup) (e : String × String) :
    e ∈ edgesOf (addChild acc p c) ↔ e ∈ edgesOf acc ∨ e = (p, c) := by
  induction acc with
  | nil => simp [addChild, lookupA, edgesOf, eq_comm]
  | cons kv acc ih =>
    obtain ⟨k, vs⟩ := kv
    simp only [List.map_cons, List.nodup_cons] at hkeys
    by_cases hk : k = p
    · subst hk
      rw [addChild_cons_self hkeys.1]
      by_cases hc : c ∈ vs
      · simp only [if_pos hc, edgesOf, List.flatMap_cons, List.mem_append,
          List.mem_map]
        aesop
      · simp only [if_neg hc, edgesOf, List.flatMap_cons, List.mem_append,
          List.mem_map]
        aesop
    · rw [addChild_cons_ne hk]
      simp only [edgesOf, List.flatMap_cons, List.mem_append]
      rw [show (addChild acc p c).flatMap (fun kv => kv.2.map (fun v => (kv.1, v)))
          = edgesOf (addChild acc p c) from rfl, ih hkeys.2]
      tauto

theorem addChild_keys_nodup {acc : AdjMap} {p c : String}
    (h : (acc.map Prod.fst).Nodup) :
    ((addChild acc p c).map Prod.fst).Nodup := by
  unfold addChild
  cases hl : lookupA acc p with
  | some cs =>
    rw [updateA_map_fst]
    exact h
  | none =>
    rw [List.map_append, List.nodup_append]
    refine ⟨h, by simp, ?_⟩
    intro x hx hxp
    simp only [List.map_cons, List.map_nil, List.mem_singleton] at hxp
    subst hxp
    exact lookupA_eq_none_iff.mp hl hx

theorem addChild_values_nodup {acc : AdjMap} {p c : String}
    (h : ∀ kv ∈ acc, (kv.2 : List String).Nodup) :
    ∀ kv ∈ addChild acc p c, (kv.2 : List String).Nodup := by
  unfold addChild
  cases hl : lookupA acc p with
  | some cs =>
    intro kv hkv
    obtain ⟨kv0, hkv0, hkveq⟩ := List.mem_map.mp hkv
    have hcs : cs.Nodup := h _ (lookupA_mem hl)
    by_cases hc0 : kv0.1 = p
    · rw [if_pos hc0] at hkveq
      rw [← hkveq]
      simp only []
      split
      · exact hcs
      · rename_i hcin
        rw [List.nodup_append]
        refine ⟨hcs, List.nodup_singleton c, ?_⟩
        intro x hx hxc
        simp only [List.mem_singleton] at hxc
        subst hxc
        exact hcin hx
    · rw [if_neg hc0] at hkveq
      rw [← hkveq]
      exact h kv0 hkv0
  | none =>
    intro kv hkv
    rcases List.mem_append.mp hkv with hkv | hkv
    · exact h kv hkv
    · simp only [List.mem_singleton] at hkv
      subst hkv
      exact List.nodup_singleton c

theorem edgesOf_nodup {m : AdjMap} (hkeys : (m.map Prod.fst).Nodup)
    (hvals : ∀ kv ∈ m, (kv.2 : List String).Nodup) : (edgesOf m).Nodup := by
  induction m with
  | nil => exact List.nodup_nil
  | cons kv m ih =>
    obtain ⟨k, vs⟩ := kv
    simp only [List.map_cons, List.nodup_cons] at hkeys
    simp only [edgesOf, List.flatMap_cons]
    rw [List.nodup_append]
    refine ⟨?_, ih hkeys.2 (fun kv h => hvals kv (List.mem_cons_of_mem _ h)), ?_⟩
    · exact List.Nodup.map (fun a b hab => by simpa using hab)
        (hvals (k, vs) (List.mem_cons_self _ _))
    · intro e he hem
      obtain ⟨v, hv, hrfl⟩ := List.mem_map.mp he
      have hfst := mem_edgesOf_fst hem
      rw [← hrfl] at hfst
      exact hkeys.1 hfst

theorem foldParents_spec (child : String) :
    ∀ (parents : List String) (acc : AdjMap),
    (acc.map Prod.fst).Nodup →
    (∀ kv ∈ acc, (kv.2 : List String).Nodup) →
    ((parents.foldl (fun a parent => addChild a parent child) acc).map
        Prod.fst).Nodup
    ∧ (∀ kv ∈ parents.foldl (fun a parent => addChild a parent child) acc,
        (kv.2 : List String).Nodup)
    ∧ ∀ e : String × String,
        e ∈ edgesOf (parents.foldl (fun a parent => addChild a parent child) acc)
          ↔ e ∈ edgesOf acc ∨ (e.2 = child ∧ e.1 ∈ parents) := by
  intro parents
  induction parents with
  | nil =>
    intro acc h1 h2
    exact ⟨h1, h2, fun e => by simp⟩
  | cons p ps ih =>
    intro acc h1 h2
    simp only [List.foldl_cons]
    obtain ⟨r1, r2, r3⟩ :=
      ih (addChild acc p child) (addChild_keys_nodup h1) (addChild_values_nodup h2)
    refine ⟨r1, r2, fun e => ?_⟩
    rw [r3 e, edgesOf_addChild p child h1 e]
    constructor
    · rintro ((h | rfl) | ⟨hc, hp⟩)
      · exact Or.inl h
      · exact Or.inr ⟨rfl, List.mem_cons_self _ _⟩
      · exact Or.inr ⟨hc, List.mem_cons_of_mem _ hp⟩
    · rintro (h | ⟨hc, hp⟩)
      · exact Or.inl (Or.inl h)
      · rcases List.mem_cons.mp hp with hp1 | hp1
        · obtain ⟨e1, e2⟩ := e
          simp only [] at hc hp1
          subst hc
          subst hp1
          exact Or.inl (Or.inr rfl)
        · exact Or.inr ⟨hc, hp1⟩

theorem invertAcc_spec (m : AdjMap) :
    ∀ (acc : AdjMap),
    (acc.map Prod.fst).Nodup →
    (∀ kv ∈ acc, (kv.2 : List String).Nodup) →
    ((m.foldl (fun acc kv => kv.2.foldl (fun a parent => addChild a parent kv.1) acc)
        acc).map Prod.fst).Nodup
    ∧ (∀ kv ∈ m.foldl
          (fun acc kv => kv.2.foldl (fun a parent => addChild a parent kv.1) acc) acc,
        (kv.2 : List String).Nodup)
    ∧ ∀ e : String × String,
        e ∈ edgesOf (m.foldl
            (fun acc kv => kv.2.foldl (fun a parent => addChild a parent kv.1) acc) acc)
          ↔ e ∈ edgesOf acc ∨ (e.2, e.1) ∈ edgesOf m := by
  induction m with
  | nil =>
    intro acc h1 h2
    exact ⟨h1, h2, fun e => by simp [edgesOf]⟩
  | cons kv m ih =>
    intro acc h1 h2
    simp only [List.foldl_cons]
    obtain ⟨p1, p2, p3⟩ := foldParents_spec kv.1 kv.2 acc h1 h2
    obtain ⟨r1, r2, r3⟩ := ih _ p1 p2
    refine ⟨r1, r2, fun e => ?_⟩
    rw [r3 e, p3 e]
    simp only [edgesOf, List.flatMap_cons, List.mem_append, List.mem_map]
    constructor
    · rintro ((h | ⟨hc, hp⟩) | h)
      · exact Or.inl h
      · exact Or.inr (Or.inl ⟨e.1, hp, by rw [hc]⟩)
      · exact Or.inr (Or.inr h)
    · rintro (h | (⟨v, hv, hve⟩ | h))
      · exact Or.inl (Or.inl h)
      · obtain ⟨e1, e2⟩ := e
        simp only [Prod.mk.injEq] at hve
        obtain ⟨hv1, hv2⟩ := hve
        subst hv1
        subst hv2
        exact Or.inl (Or.inr ⟨rfl, hv⟩)
      · exact Or.inr h

theorem edgesOf_sortVals_perm (m : AdjMap) :
    (edgesOf (m.map (fun kv => (kv.1, kv.2.insertionSort (fun a b => a ≤ b))))).Perm
      (edgesOf m) := by
  induction m with
  | nil => exact List.Perm.refl _
  | cons kv m ih =>
    simp only [List.map_cons, edgesOf, List.flatMap_cons]
    exact List.Perm.append ((List.perm_insertionSort _ _).map _) ih

/-- C9: `invert_mapping` turns every `(child, parent)` edge of the input into
a `(parent, child)` edge of the output and nothing else (the edge set
round-trips), each output edge appears exactly once regardless of duplicates
in the input, and empty input yields empty output. -/
theorem claim_C9 :
    invert_mapping [] = []
    ∧ (∀ (m : AdjMap) (c p : String),
        ((p, c) ∈ edgesOf (invert_mapping m) ↔ (c, p) ∈ edgesOf m))
    ∧ ∀ m : AdjMap, (edgesOf (invert_mapping m)).Nodup := by
  refine ⟨rfl, ?_, ?_⟩
  · intro m c p
    obtain ⟨r1, r2, r3⟩ := invertAcc_spec m [] (by simp) (by simp)
    unfold invert_mapping invertAcc
    rw [(edgesOf_sortVals_perm _).mem_iff, r3 (p, c)]
    simp [edgesOf]
  · intro m
    obtain ⟨r1, r2, r3⟩ := invertAcc_spec m [] (by simp) (by simp)
    unfold invert_mapping invertAcc
    exact (edgesOf_sortVals_perm _).nodup_iff.mpr (edgesOf_nodup r1 r2)

/-! ### Claim C5: invalid direction reaching the combination stage -/

/-- C5 (code bug): when a direction outside
`{"upward","downward","both"}` reaches the combination stage, the `else`
branch (lines 517-522) does report zero combined paths and zero batches,
but the iteration does NOT survive to the next node: the unconditional
`del batch_paths` in the cleanup block (line 588) hits a local that was
never assigned in any invalid-direction iteration and raises
`UnboundLocalError`, so the run crashes on the first node instead of
continuing.  The claim (and the spec) describe the intended no-op
behaviour; the cleanup `del` contradicts it. -/
theorem claim_C5 :
    (processNode id [] [] "diagonal" "Q1" none none none 50000).1.combined_paths = 0
    ∧ (processNode id [] [] "diagonal" "Q1" none none none 50000).1.num_batches = 0
    ∧ (processNode id [] [] "diagonal" "Q1" none none none 50000).2
        = Except.error unboundLocalMsg
    ∧ processClasses id [] [] "diagonal" ["Q1", "Q2"] none none none 50000
        = Except.error unboundLocalMsg :=
  ⟨rfl, rfl, rfl, rfl⟩

/-! ### Claim C3: trie deduplication -/

theorem lookupC_mem {cs : List (String × TrieNode)} {k : String} {t : TrieNode}
    (h : lookupC cs k = some t) : (k, t) ∈ cs := by
  induction cs with
  | nil => simp [lookupC] at h
  | cons c rest ih =>
    obtain ⟨k0, t0⟩ := c
    by_cases hk : k0 = k
    · subst hk
      simp [lookupC] at h
      simp [h]
    · simp only [lookupC, if_neg hk] at h
      exact List.mem_cons_of_mem _ (ih h)

theorem lookupC_eq_none_iff {cs : List (String × TrieNode)} {k : String} :
    lookupC cs k = none ↔ k ∉ cs.map Prod.fst := by
  induction cs with
  | nil => simp [lookupC]
  | cons c rest ih =>
    obtain ⟨k0, t0⟩ := c
    simp only [lookupC, List.map_cons, List.mem_cons]
    by_cases hk : k0 = k
    · subst hk
      simp
    · rw [if_neg hk, ih]
      constructor
      · intro h hmem
        rcases hmem with h1 | h1
        · exact hk h1.symm
        · exact h h1
      · intro h h1
        exact h (Or.inr h1)

theorem lookupC_of_mem {cs : List (String × TrieNode)} {c : String × TrieNode}
    (hkeys : (cs.map Prod.fst).Nodup) (h : c ∈ cs) :
    lookupC cs c.1 = some c.2 := by
  induction cs with
  | nil => simp at h
  | cons c0 rest ih =>
    obtain ⟨k0, t0⟩ := c0
    simp only [List.map_cons, List.nodup_cons] at hkeys
    rcases List.mem_cons.mp h with h | h
    · subst h
      simp [lookupC]
    · have hne : k0 ≠ c.1 := by
        intro hc
        apply hkeys.1
        rw [hc]
        exact List.mem_map.mpr ⟨c, h, rfl⟩
      simp only [lookupC, if_neg hne]
      exact ih hkeys.2 h

theorem lookupC_updateC_self {cs : List (String × TrieNode)} {k : String}
    {t0 t : TrieNode} (h : lookupC cs k = some t0) :
    lookupC (updateC cs k t) k = some t := by
  induction cs with
  | nil => simp [lookupC] at h
  | cons c rest ih =>
    obtain ⟨k0, v0⟩ := c
    by_cases hk : k0 = k
    · subst hk
      simp only [updateC, List.map_cons, Prod.fst, if_pos rfl]
      simp [lookupC]
    · simp only [lookupC, if_neg hk] at h
      simp only [updateC, List.map_cons, Prod.fst, if_neg hk]
      simp only [lookupC, if_neg hk]
      exact ih h

theorem lookupC_updateC_ne {cs : List (String × TrieNode)} {k y : String}
    {t : TrieNode} (h : y ≠ k) :
    lookupC (updateC cs k t) y = lookupC cs y := by
  induction cs with
  | nil => rfl
  | cons c rest ih =>
    obtain ⟨k0, v0⟩ := c
    by_cases hk : k0 = k
    · subst hk
      have hky : ¬ (k0 : String) = y := fun hc => h hc.symm
      simp only [updateC, List.map_cons, Prod.fst, if_pos rfl]
      simp only [lookupC, if_neg hky]
      exact ih
    · simp only [updateC, List.map_cons, Prod.fst, if_neg hk]
      simp only [lookupC]
      by_cases hk0y : k0 = y
      · simp [hk0y]
      · rw [if_neg hk0y, if_neg hk0y]
        exact ih

theorem lookupC_append_of_some {cs ds : List (String × TrieNode)} {k : String}
    {t : TrieNode} (h : lookupC cs k = some t) :
    lookupC (cs ++ ds) k = some t := by
  induction cs with
  | nil => simp [lookupC] at h
  | cons c rest ih =>
    obtain ⟨k0, v0⟩ := c
    by_cases hk : k0 = k
    · subst hk
      simp [lookupC] at h
      simp [lookupC, h]
    · simp only [lookupC, if_neg hk] at h
      simp only [List.cons_append, lookupC, if_neg hk]
      exact ih h

theorem lookupC_append_of_none {cs ds : List (String × TrieNode)} {k : String}
    (h : lookupC cs k = none) :
    lookupC (cs ++ ds) k = lookupC ds k := by
  induction cs with
  | nil => rfl
  | cons c rest ih =>
    obtain ⟨k0, v0⟩ := c
    by_cases hk : k0 = k
    · subst hk
      simp [lookupC] at h
    · simp only [lookupC, if_neg hk] at h
      simp only [List.cons_append, lookupC, if_neg hk]
      exact ih h

theorem updateC_map_fst (cs : List (String × TrieNode)) (k : String) (t : TrieNode) :
    (updateC cs k t).map Prod.fst = cs.map Prod.fst := by
  induction cs with
  | nil => rfl
  | cons c rest ih =>
    simp only [updateC, List.map_cons] at *
    by_cases hk : c.1 = k
    · simp [hk, ih]
    · simp [hk, ih]

theorem trieWF_empty : TrieWF emptyTrie :=
  TrieWF.mk List.nodup_nil (by intro c hc; simp at hc)

theorem trieWF_insert : ∀ (p : List String) (t : TrieNode), TrieWF t →
    TrieWF (t.insert p) := by
  intro p
  induction p with
  | nil =>
    intro t hwf
    obtain ⟨cs, e⟩ := t
    cases hwf with
    | mk hkeys hch => exact TrieWF.mk hkeys hch
  | cons x rest ih =>
    intro t hwf
    obtain ⟨cs, e⟩ := t
    cases hwf with
    | mk hkeys hch =>
    rw [TrieNode.insert]
    cases hl : lookupC cs x with
    | some child =>
      refine TrieWF.mk (by rw [updateC_map_fst]; exact hkeys) ?_
      intro c hc
      obtain ⟨c0, hc0, hceq⟩ := List.mem_map.mp hc
      by_cases hcx : c0.1 = x
      · rw [if_pos hcx] at hceq
        rw [← hceq]
        have hc0l : lookupC cs c0.1 = some c0.2 := lookupC_of_mem hkeys hc0
        rw [hcx, hl] at hc0l
        injection hc0l with hv
        simp only [hv]
        exact ih c0.2 (hch c0 hc0)
      · rw [if_neg hcx] at hceq
        rw [← hceq]
        exact hch c0 hc0
    | none =>
      refine TrieWF.mk ?_ ?_
      · rw [List.map_append, List.nodup_append]
        refine ⟨hkeys, by simp, ?_⟩
        intro y hy hyx
        simp only [List.map_cons, List.map_nil, List.mem_singleton] at hyx
        subst hyx
        exact lookupC_eq_none_iff.mp hl hy
      · intro c hc
        rcases List.mem_append.mp hc with hc | hc
        · exact hch c hc
        · simp only [List.mem_singleton] at hc
          subst hc
          exact ih _ trieWF_empty

theorem trieWF_trieOf (ps : List (List String)) : TrieWF (trieOf ps) := by
  unfold trieOf
  have haux : ∀ (qs : List (List String)) (t : TrieNode), TrieWF t →
      TrieWF (qs.foldl (fun t p => t.insert p) t) := by
    intro qs
    induction qs with
    | nil => intro t h; exact h
    | cons q qs ih =>
      intro t h
      simp only [List.foldl_cons]
      exact ih _ (trieWF_insert q t h)
  exact haux ps emptyTrie trieWF_empty

theorem endAt_mk_nil (cs : List (String × TrieNode)) (e : Bool) :
    endAt (TrieNode.mk cs e) [] = e := rfl

theorem nodeAt_mk_nil (cs : List (String × TrieNode)) (e : Bool) :
    nodeAt (TrieNode.mk cs e) [] = true := rfl

theorem leafAt_mk_nil (cs : List (String × TrieNode)) (e : Bool) :
    leafAt (TrieNode.mk cs e) [] = cs.isEmpty := rfl

theorem findNode_mk_cons_some {cs : List (String × TrieNode)} {x : String}
    {c : TrieNode} (h : lookupC cs x = some c) (e : Bool) (p : List String) :
    findNode (TrieNode.mk cs e) (x :: p) = findNode c p := by
  rw [findNode]
  have hch : (TrieNode.mk cs e).children = cs := rfl
  rw [hch, h]

theorem findNode_mk_cons_none {cs : List (String × TrieNode)} {x : String}
    (h : lookupC cs x = none) (e : Bool) (p : List String) :
    findNode (TrieNode.mk cs e) (x :: p) = none := by
  rw [findNode]
  have hch : (TrieNode.mk cs e).children = cs := rfl
  rw [hch, h]

theorem endAt_mk_cons_some {cs : List (String × TrieNode)} {x : String}
    {c : TrieNode} (h : lookupC cs x = some c) (e : Bool) (p : List String) :
    endAt (TrieNode.mk cs e) (x :: p) = endAt c p := by
  unfold endAt
  rw [findNode_mk_cons_some h]

theorem endAt_mk_cons_none {cs : List (String × TrieNode)} {x : String}
    (h : lookupC cs x = none) (e : Bool) (p : List String) :
    endAt (TrieNode.mk cs e) (x :: p) = false := by
  unfold endAt
  rw [findNode_mk_cons_none h]

theorem nodeAt_mk_cons_some {cs : List (String × TrieNode)} {x : String}
    {c : TrieNode} (h : lookupC cs x = some c) (e : Bool) (p : List String) :
    nodeAt (TrieNode.mk cs e) (x :: p) = nodeAt c p := by
  unfold nodeAt
  rw [findNode_mk_cons_some h]

theorem nodeAt_mk_cons_none {cs : List (String × TrieNode)} {x : String}
    (h : lookupC cs x = none) (e : Bool) (p : List String) :
    nodeAt (TrieNode.mk cs e) (x :: p) = false := by
  unfold nodeAt
  rw [findNode_mk_cons_none h]
  rfl

theorem endAt_empty (p : List String) : endAt emptyTrie p = false := by
  cases p with
  | nil => rfl
  | cons x pr =>
    have h : lookupC ([] : List (String × TrieNode)) x = none := rfl
    exact endAt_mk_cons_none h false pr

theorem nodeAt_empty (p : List String) : nodeAt emptyTrie p = true ↔ p = [] := by
  cases p with
  | nil => simp [nodeAt, findNode]
  | cons x pr =>
    have h : lookupC ([] : List (String × TrieNode)) x = none := rfl
    rw [show emptyTrie = TrieNode.mk [] false from rfl,
      nodeAt_mk_cons_none h false pr]
    simp

theorem endAt_insert : ∀ (q : List String) (t : TrieNode) (p : List String),
    endAt (t.insert q) p = true ↔ p = q ∨ endAt t p = true := by
  intro q
  induction q with
  | nil =>
    intro t p
    obtain ⟨cs, e⟩ := t
    rw [TrieNode.insert]
    cases p with
    | nil => simp [endAt_mk_nil]
    | cons x pr =>
      cases hl : lookupC cs x with
      | some c =>
        rw [endAt_mk_cons_some hl, endAt_mk_cons_some hl]
        simp
      | none =>
        rw [endAt_mk_cons_none hl, endAt_mk_cons_none hl]
        simp
  | cons y qr ih =>
    intro t p
    obtain ⟨cs, e⟩ := t
    rw [TrieNode.insert]
    cases hl : lookupC cs y with
    | some child =>
      cases p with
      | nil => simp [endAt_mk_nil]
      | cons x pr =>
        by_cases hxy : x = y
        · subst hxy
          have hup : lookupC (updateC cs x (child.insert qr)) x
              = some (child.insert qr) := lookupC_updateC_self hl
          rw [endAt_mk_cons_some hup, endAt_mk_cons_some hl, ih]
          simp
        · have hup : lookupC (updateC cs y (child.insert qr)) x = lookupC cs x :=
            lookupC_updateC_ne hxy
          cases hlx : lookupC cs x with
          | some c =>
            rw [endAt_mk_cons_some (hup.trans hlx), endAt_mk_cons_some hlx]
            simp [hxy]
          | none =>
            rw [endAt_mk_cons_none (hup.trans hlx), endAt_mk_cons_none hlx]
            simp [hxy]
    | none =>
      cases p with
      | nil => simp [endAt_mk_nil]
      | cons x pr =>
        by_cases hxy : x = y
        · subst hxy
          have happ : lookupC (cs ++ [(x, (TrieNode.mk [] false).insert qr)]) x
              = some ((TrieNode.mk [] false).insert qr) := by
            rw [lookupC_append_of_none hl]
            simp [lookupC]
          rw [endAt_mk_cons_some happ, ih, endAt_mk_cons_none hl]
          have hemp : endAt (TrieNode.mk [] false) pr = false := endAt_empty pr
          simp [hemp]
        · cases hlx : lookupC cs x with
          | some c =>
            have happ : lookupC (cs ++ [(y, (TrieNode.mk [] false).insert qr)]) x
                = some c := lookupC_append_of_some hlx
            rw [endAt_mk_cons_some happ, endAt_mk_cons_some hlx]
            simp [hxy]
          | none =>
            have hyx : ¬ y = x := fun h => hxy h.symm
            have happ : lookupC (cs ++ [(y, (TrieNode.mk [] false).insert qr)]) x
                = none := by
              rw [lookupC_append_of_none hlx]
              simp [lookupC, hyx]
            rw [endAt_mk_cons_none happ, endAt_mk_cons_none hlx]
            simp [hxy]

theorem nodeAt_insert : ∀ (q : List String) (t : TrieNode) (p : List String),
    nodeAt (t.insert q) p = true ↔ p <+: q ∨ nodeAt t p = true := by
  intro q
  induction q with
  | nil =>
    intro t p
    obtain ⟨cs, e⟩ := t
    rw [TrieNode.insert]
    cases p with
    | nil => simp [nodeAt_mk_nil]
    | cons x pr =>
      cases hl : lookupC cs x with
      | some c =>
        rw [nodeAt_mk_cons_some hl, nodeAt_mk_cons_some hl]
        simp
      | none =>
        rw [nodeAt_mk_cons_none hl, nodeAt_mk_cons_none hl]
        simp
  | cons y qr ih =>
    intro t p
    obtain ⟨cs, e⟩ := t
    rw [TrieNode.insert]
    cases hl : lookupC cs y with
    | some child =>
      cases p with
      | nil => simp [nodeAt_mk_nil, List.nil_prefix]
      | cons x pr =>
        by_cases hxy : x = y
        · subst hxy
          have hup : lookupC (updateC cs x (child.insert qr)) x
              = some (child.insert qr) := lookupC_updateC_self hl
          rw [nodeAt_mk_cons_some hup, nodeAt_mk_cons_some hl, ih]
          simp [List.cons_prefix_cons]
        · have hup : lookupC (updateC cs y (child.insert qr)) x = lookupC cs x :=
            lookupC_updateC_ne hxy
          cases hlx : lookupC cs x with
          | some c =>
            rw [nodeAt_mk_cons_some (hup.trans hlx), nodeAt_mk_cons_some hlx]
            simp [List.cons_prefix_cons, hxy]
          | none =>
            rw [nodeAt_mk_cons_none (hup.trans hlx), nodeAt_mk_cons_none hlx]
            simp [List.cons_prefix_cons, hxy]
    | none =>
      cases p with
      | nil => simp [nodeAt_mk_nil, List.nil_prefix]
      | cons x pr =>
        by_cases hxy : x = y
        · subst hxy
          have happ : lookupC (cs ++ [(x, (TrieNode.mk [] false).insert qr)]) x
              = some ((TrieNode.mk [] false).insert qr) := by
            rw [lookupC_append_of_none hl]
            simp [lookupC]
          rw [nodeAt_mk_cons_some happ, ih, nodeAt_mk_cons_none hl]
          rw [show TrieNode.mk [] false = emptyTrie from rfl]
          constructor
          · rintro (h | h)
            · exact Or.inl (List.cons_prefix_cons.mpr ⟨rfl, h⟩)
            · rw [(nodeAt_empty pr).mp h]
              exact Or.inl (List.cons_prefix_cons.mpr ⟨rfl, List.nil_prefix⟩)
          · rintro (h | h)
            · exact Or.inl (List.cons_prefix_cons.mp h).2
            · simp at h
        · cases hlx : lookupC cs x with
          | some c =>
            have happ : lookupC (cs ++ [(y, (TrieNode.mk [] false).insert qr)]) x
                = some c := lookupC_append_of_some hlx
            rw [nodeAt_mk_cons_some happ, nodeAt_mk_cons_some hlx]
            simp [List.cons_prefix_cons, hxy]
          | none =>
            have hyx : ¬ y = x := fun h => hxy h.symm
            have happ : lookupC (cs ++ [(y, (TrieNode.mk [] false).insert qr)]) x
                = none := by
              rw [lookupC_append_of_none hlx]
              simp [lookupC, hyx]
            rw [nodeAt_mk_cons_none happ, nodeAt_mk_cons_none hlx]
            simp [List.cons_prefix_cons, hxy]

theorem endAt_foldl_insert : ∀ (qs : List (List String)) (t : TrieNode)
    (p : List String),
    endAt (qs.foldl (fun t q => t.insert q) t) p = true ↔ p ∈ qs ∨ endAt t p = true := by
  intro qs
  induction qs with
  | nil => intro t p; simp
  | cons q qs ih =>
    intro t p
    simp only [List.foldl_cons]
    rw [ih, endAt_insert, List.mem_cons]
    tauto

theorem endAt_trieOf (ps : List (List String)) (p : List String) :
    endAt (trieOf ps) p = true ↔ p ∈ ps := by
  unfold trieOf
  rw [endAt_foldl_insert]
  simp [endAt_empty]

theorem nodeAt_foldl_insert : ∀ (qs : List (List String)) (t : TrieNode)
    (p : List String),
    nodeAt (qs.foldl (fun t q => t.insert q) t) p = true
      ↔ (∃ q ∈ qs, p <+: q) ∨ nodeAt t p = true := by
  intro qs
  induction qs with
  | nil => intro t p; simp
  | cons q qs ih =>
    intro t p
    simp only [List.foldl_cons]
    rw [ih, nodeAt_insert]
    constructor
    · rintro (⟨q', hq', hp⟩ | (hp | hp))
      · exact Or.inl ⟨q', List.mem_cons_of_mem _ hq', hp⟩
      · exact Or.inl ⟨q, List.mem_cons_self _ _, hp⟩
      · exact Or.inr hp
    · rintro (⟨q', hq', hp⟩ | hp)
      · rcases List.mem_cons.mp hq' with h | h
        · subst h
          exact Or.inr (Or.inl hp)
        · exact Or.inl ⟨q', h, hp⟩
      · exact Or.inr (Or.inr hp)

theorem nodeAt_trieOf (ps : List (List String)) (p : List String) :
    nodeAt (trieOf ps) p = true ↔ (∃ q ∈ ps, p <+: q) ∨ p = [] := by
  unfold trieOf
  rw [nodeAt_foldl_insert, nodeAt_empty]

theorem findNode_append : ∀ (p q : List String) (t : TrieNode),
    findNode t (p ++ q) = (findNode t p).bind (fun n => findNode n q) := by
  intro p
  induction p with
  | nil => intro q t; simp [findNode]
  | cons x pr ih =>
    intro q t
    obtain ⟨cs, e⟩ := t
    cases hl : lookupC cs x with
    | some c =>
      rw [List.cons_append, findNode_mk_cons_some hl, findNode_mk_cons_some hl, ih]
    | none =>
      rw [List.cons_append, findNode_mk_cons_none hl, findNode_mk_cons_none hl]
      rfl

theorem leafAt_iff_no_ext {t : TrieNode} {p : List String}
    (h : nodeAt t p = true) :
    leafAt t p = true ↔ ∀ x, nodeAt t (p ++ [x]) = false := by
  unfold nodeAt at h
  cases hf : findNode t p with
  | none => rw [hf] at h; simp at h
  | some n =>
    obtain ⟨cs, e⟩ := n
    have hleaf : leafAt t p = cs.isEmpty := by
      unfold leafAt
      rw [hf]
      rfl
    have hnx : ∀ x, nodeAt t (p ++ [x]) = (lookupC cs x).isSome := by
      intro x
      unfold nodeAt
      rw [findNode_append, hf]
      simp only [Option.some_bind]
      cases hl : lookupC cs x with
      | some c =>
        rw [findNode_mk_cons_some hl]
        rfl
      | none =>
        rw [findNode_mk_cons_none hl]
    rw [hleaf]
    constructor
    · intro hemp x
      have hcs : cs = [] := List.isEmpty_iff.mp hemp
      rw [hnx x, hcs]
      rfl
    · intro hall
      cases hcs : cs with
      | nil => rfl
      | cons c0 cs' =>
        exfalso
        have h1 := hall c0.1
        rw [hnx c0.1] at h1
        have h2 : lookupC cs c0.1 = some c0.2 := by
          rw [hcs]
          obtain ⟨k, t0⟩ := c0
          simp [lookupC]
        rw [h2] at h1
        simp at h1

theorem sizeOf_TrieNode_mk (cs : List (String × TrieNode)) (e : Bool) :
    sizeOf (TrieNode.mk cs e) = 1 + sizeOf cs + sizeOf e := by
  simp

theorem sizeOf_snd_lt_of_mem {cs : List (String × TrieNode)} {c : String × TrieNode}
    (h : c ∈ cs) (e : Bool) : sizeOf c.2 < sizeOf (TrieNode.mk cs e) := by
  have h1 : sizeOf c < sizeOf cs := List.sizeOf_lt_of_mem h
  obtain ⟨x, t⟩ := c
  have h2 := sizeOf_TrieNode_mk cs e
  simp only [Prod.mk.sizeOf_spec] at h1
  simp only []
  omega

theorem mem_traverseChildren : ∀ (cs : List (String × TrieNode)) (pre r : List String),
    r ∈ traverseChildren cs pre ↔ ∃ c ∈ cs, r ∈ c.2.traverse (pre ++ [c.1]) := by
  intro cs
  induction cs with
  | nil => intro pre r; simp [traverseChildren]
  | cons c0 cs ih =>
    intro pre r
    obtain ⟨x, ct⟩ := c0
    rw [traverseChildren, List.mem_append, ih]
    constructor
    · rintro (h | ⟨c', hc', h⟩)
      · exact ⟨(x, ct), List.mem_cons_self _ _, h⟩
      · exact ⟨c', List.mem_cons_of_mem _ hc', h⟩
    · rintro ⟨c', hc', h⟩
      rcases List.mem_cons.mp hc' with hc1 | hc1
      · subst hc1
        exact Or.inl h
      · exact Or.inr ⟨c', hc1, h⟩

theorem traverse_shape : ∀ (n : Nat) (t : TrieNode), sizeOf t ≤ n →
    ∀ (pre r : List String), r ∈ t.traverse pre → pre <+: r := by
  intro n
  induction n with
  | zero =>
    intro t ht
    exfalso
    obtain ⟨cs, e⟩ := t
    have h2 := sizeOf_TrieNode_mk cs e
    omega
  | succ n ihn =>
    intro t ht pre r hr
    obtain ⟨cs, e⟩ := t
    rw [TrieNode.traverse, List.mem_append, mem_traverseChildren] at hr
    rcases hr with hr | ⟨c, hc, hr⟩
    · split at hr
      · simp only [List.mem_singleton] at hr
        subst hr
        exact List.prefix_refl _
      · simp at hr
    · have hsz : sizeOf c.2 ≤ n := by
        have h5 := sizeOf_snd_lt_of_mem hc e
        have h6 : sizeOf (TrieNode.mk cs e) ≤ n + 1 := ht
        omega
      have := ihn c.2 hsz (pre ++ [c.1]) r hr
      exact (List.prefix_append pre [c.1]).trans this

theorem mem_traverse_of_size : ∀ (n : Nat) (t : TrieNode), sizeOf t ≤ n →
    TrieWF t → ∀ (pre r : List String),
    r ∈ t.traverse pre ↔ ∃ s, r = pre ++ s ∧ endAt t s = true ∧ leafAt t s = true := by
  intro n
  induction n with
  | zero =>
    intro t ht
    exfalso
    obtain ⟨cs, e⟩ := t
    have h2 := sizeOf_TrieNode_mk cs e
    omega
  | succ n ihn =>
    intro t ht hwf pre r
    obtain ⟨cs, e⟩ := t
    cases hwf with
    | mk hkeys hch =>
    rw [TrieNode.traverse, List.mem_append, mem_traverseChildren]
    constructor
    · rintro (hif | ⟨c, hc, hr⟩)
      · by_cases hcond : (e && cs.isEmpty) = true
        · rw [if_pos hcond] at hif
          simp only [List.mem_singleton] at hif
          subst hif
          obtain ⟨he, hemp⟩ := Bool.and_eq_true_iff.mp hcond
          refine ⟨[], by simp, ?_, ?_⟩
          · rw [endAt_mk_nil]
            exact he
          · rw [leafAt_mk_nil]
            exact hemp
        · rw [if_neg hcond] at hif
          simp at hif
      · have hsz : sizeOf c.2 ≤ n := by
          have h5 := sizeOf_snd_lt_of_mem hc e
          have h6 : sizeOf (TrieNode.mk cs e) ≤ n + 1 := ht
          omega
        rw [ihn c.2 hsz (hch c hc) (pre ++ [c.1]) r] at hr
        obtain ⟨s, hrs, hend, hleaf⟩ := hr
        have hlk : lookupC cs c.1 = some c.2 := lookupC_of_mem hkeys hc
        refine ⟨c.1 :: s, ?_, ?_, ?_⟩
        · rw [hrs]
          simp
        · rw [endAt_mk_cons_some hlk]
          exact hend
        · unfold leafAt at hleaf ⊢
          rw [findNode_mk_cons_some hlk]
          exact hleaf
    · rintro ⟨s, hrs, hend, hleaf⟩
      subst hrs
      cases s with
      | nil =>
        left
        rw [endAt_mk_nil] at hend
        rw [leafAt_mk_nil] at hleaf
        rw [if_pos (by rw [hend, hleaf]; rfl)]
        simp
      | cons x s =>
        right
        cases hlk : lookupC cs x with
        | none =>
          rw [endAt_mk_cons_none hlk] at hend
          exact absurd hend (by simp)
        | some ct =>
          have hmem : (x, ct) ∈ cs := lookupC_mem hlk
          have hsz : sizeOf ct ≤ n := by
            have h5 : sizeOf ct < sizeOf (TrieNode.mk cs e) :=
              sizeOf_snd_lt_of_mem hmem e
            have h6 : sizeOf (TrieNode.mk cs e) ≤ n + 1 := ht
            omega
          refine ⟨(x, ct), hmem, ?_⟩
          rw [ihn ct hsz (hch _ hmem) (pre ++ [x])]
          refine ⟨s, by simp, ?_, ?_⟩
          · rw [endAt_mk_cons_some hlk] at hend
            exact hend
          · unfold leafAt at hleaf ⊢
            rw [findNode_mk_cons_some hlk] at hleaf
            exact hleaf

theorem count_eq_one_of_nodup_mem {α : Type} [BEq α] [LawfulBEq α]
    {l : List α} {a : α} (hn : l.Nodup) (hm : a ∈ l) : l.count a = 1 := by
  induction l with
  | nil => simp at hm
  | cons b l ih =>
    rw [List.count_cons]
    rcases List.mem_cons.mp hm with h | h
    · subst h
      have hnotin : a ∉ l := (List.nodup_cons.mp hn).1
      rw [List.count_eq_zero.mpr hnotin]
      simp
    · have hne : a ≠ b := by
        intro hc
        subst hc
        exact (List.nodup_cons.mp hn).1 h
      rw [ih (List.nodup_cons.mp hn).2 h]
      have hba : ¬ b = a := fun hc => hne hc.symm
      simp [hne, hba]

theorem traverseChildren_nodup_of_size (n : Nat)
    (ihn : ∀ (t : TrieNode), sizeOf t ≤ n → TrieWF t →
      ∀ pre, (t.traverse pre).Nodup) :
    ∀ (cs0 cs : List (String × TrieNode)) (e : Bool),
    sizeOf (TrieNode.mk cs0 e) ≤ n + 1 →
    (∀ c ∈ cs, c ∈ cs0) →
    (cs.map Prod.fst).Nodup →
    (∀ c ∈ cs, TrieWF c.2) →
    ∀ pre, (traverseChildren cs pre).Nodup := by
  intro cs0 cs e hsz0
  induction cs with
  | nil => intro _ _ _ pre; simp [traverseChildren]
  | cons c0 cs ih =>
    intro hsub hnd hwf pre
    obtain ⟨x, ct⟩ := c0
    rw [traverseChildren]
    have hmem : ((x, ct) : String × TrieNode) ∈ cs0 := hsub _ (List.mem_cons_self _ _)
    have hszct : sizeOf ct ≤ n := by
      have h5 : sizeOf ct < sizeOf (TrieNode.mk cs0 e) := sizeOf_snd_lt_of_mem hmem e
      omega
    simp only [List.map_cons, List.nodup_cons] at hnd
    rw [List.nodup_append]
    refine ⟨ihn ct hszct (hwf _ (List.mem_cons_self _ _)) _,
      ih (fun c hc => hsub c (List.mem_cons_of_mem _ hc)) hnd.2
        (fun c hc => hwf c (List.mem_cons_of_mem _ hc)) pre, ?_⟩
    intro r hr1 hr2
    have hp1 : (pre ++ [x]) <+: r := traverse_shape n ct hszct _ _ hr1
    obtain ⟨c', hc', hr2'⟩ := (mem_traverseChildren cs pre r).mp hr2
    have hszc' : sizeOf c'.2 ≤ n := by
      have h5 : sizeOf c'.2 < sizeOf (TrieNode.mk cs0 e) :=
        sizeOf_snd_lt_of_mem (hsub c' (List.mem_cons_of_mem _ hc')) e
      omega
    have hp2 : (pre ++ [c'.1]) <+: r := traverse_shape n c'.2 hszc' _ _ hr2'
    have hxne : x ≠ c'.1 := by
      intro hcontra
      exact hnd.1 (hcontra ▸ List.mem_map.mpr ⟨c', hc', rfl⟩)
    have hlen : (pre ++ [x]).length = (pre ++ [c'.1]).length := by simp
    rcases List.prefix_or_prefix_of_prefix hp1 hp2 with hpp | hpp
    · have heq := hpp.eq_of_length hlen
      have := List.append_cancel_left heq
      simp only [List.cons.injEq] at this
      exact hxne this.1
    · have heq := hpp.eq_of_length hlen.symm
      have := List.append_cancel_left heq
      simp only [List.cons.injEq] at this
      exact hxne this.1.symm

theorem traverse_nodup_of_size : ∀ (n : Nat) (t : TrieNode), sizeOf t ≤ n →
    TrieWF t → ∀ pre, (t.traverse pre).Nodup := by
  intro n
  induction n with
  | zero =>
    intro t ht
    exfalso
    obtain ⟨cs, e⟩ := t
    have h2 := sizeOf_TrieNode_mk cs e
    omega
  | succ n ihn =>
    intro t ht hwf pre
    obtain ⟨cs, e⟩ := t
    cases hwf with
    | mk hkeys hch =>
    rw [TrieNode.traverse, List.nodup_append]
    refine ⟨?_, traverseChildren_nodup_of_size n ihn cs cs e ht (fun c hc => hc)
      hkeys hch pre, ?_⟩
    · split
      · exact List.nodup_singleton _
      · exact List.nodup_nil
    · intro r hr1 hr2
      split at hr1
      · simp only [List.mem_singleton] at hr1
        subst hr1
        obtain ⟨c, hc, hr2'⟩ := (mem_traverseChildren cs r r).mp hr2
        have hszc : sizeOf c.2 ≤ n := by
          have h5 : sizeOf c.2 < sizeOf (TrieNode.mk cs e) := sizeOf_snd_lt_of_mem hc e
          omega
        have hp : (r ++ [c.1]) <+: r := traverse_shape n c.2 hszc _ _ hr2'
        have := hp.length_le
        simp at this
      · simp at hr1

/-- C3 counterexample: insert `["A"]` and then `["A","B"]`; the recovered
set is `[["A","B"]]` --- the explicitly inserted distinct sequence `["A"]`
is silently dropped because its terminal trie node gained a child (the §9
quirk of the spec). -/
theorem claim_C3_counterexample :
    (trieOf [["A"], ["A", "B"]]).traverse [] = [["A", "B"]]
    ∧ (["A"] : List String) ∈ [["A"], ["A", "B"]]
    ∧ (["A"] : List String) ∉ (trieOf [["A"], ["A", "B"]]).traverse [] := by
  refine ⟨by decide, by decide, by decide⟩

/-- C3 amended: after inserting a finite collection of paths and running one
traversal, the output contains no two identical sequences, and a distinct
inserted sequence appears (exactly once) if and only if it is not a proper
prefix of another inserted sequence; inserted sequences that are proper
prefixes of other inserted ones are dropped. -/
theorem claim_C3 (ps : List (List String)) :
    ((trieOf ps).traverse []).Nodup
    ∧ (∀ r, r ∈ (trieOf ps).traverse []
        ↔ r ∈ ps ∧ ¬∃ q ∈ ps, r <+: q ∧ r ≠ q)
    ∧ ∀ r ∈ ps, (¬∃ q ∈ ps, r <+: q ∧ r ≠ q) →
        ((trieOf ps).traverse []).count r = 1 := by
  have hwf := trieWF_trieOf ps
  have hnodup : ((trieOf ps).traverse []).Nodup :=
    traverse_nodup_of_size (sizeOf (trieOf ps)) _ le_rfl hwf []
  have hmem : ∀ r, r ∈ (trieOf ps).traverse []
      ↔ r ∈ ps ∧ ¬∃ q ∈ ps, r <+: q ∧ r ≠ q := by
    intro r
    rw [mem_traverse_of_size (sizeOf (trieOf ps)) _ le_rfl hwf []]
    constructor
    · rintro ⟨s, hs, hend, hleaf⟩
      simp only [List.nil_append] at hs
      subst hs
      have hrin : r ∈ ps := (endAt_trieOf ps r).mp hend
      refine ⟨hrin, ?_⟩
      rintro ⟨q, hq, hpre, hne⟩
      have hnode : nodeAt (trieOf ps) r = true := by
        unfold nodeAt endAt at *
        cases hf : findNode (trieOf ps) r with
        | none => rw [hf] at hend; simp at hend
        | some nn => rfl
      obtain ⟨d, hd⟩ := hpre
      cases d with
      | nil =>
        apply hne
        rw [← hd, List.append_nil]
      | cons z d2 =>
        have hx : nodeAt (trieOf ps) (r ++ [z]) = true := by
          rw [nodeAt_trieOf]
          exact Or.inl ⟨q, hq, ⟨d2, by rw [← hd]; simp⟩⟩
        have := (leafAt_iff_no_ext hnode).mp hleaf z
        rw [this] at hx
        simp at hx
    · rintro ⟨hrin, hnoext⟩
      refine ⟨r, by simp, (endAt_trieOf ps r).mpr hrin, ?_⟩
      have hnode : nodeAt (trieOf ps) r = true := by
        have hend := (endAt_trieOf ps r).mpr hrin
        unfold nodeAt endAt at *
        cases hf : findNode (trieOf ps) r with
        | none => rw [hf] at hend; simp at hend
        | some nn => rfl
      rw [leafAt_iff_no_ext hnode]
      intro x
      by_contra hxx
      have hx : nodeAt (trieOf ps) (r ++ [x]) = true := by
        cases hb : nodeAt (trieOf ps) (r ++ [x]) with
        | false => exact absurd hb hxx
        | true => rfl
      rw [nodeAt_trieOf] at hx
      rcases hx with ⟨q, hq, hpre⟩ | hx
      · apply hnoext
        refine ⟨q, hq, (List.prefix_append r [x]).trans hpre, ?_⟩
        intro hrq
        subst hrq
        have := hpre.length_le
        simp at this
      · simp at hx
  refine ⟨hnodup, hmem, ?_⟩
  intro r hrin hnoext
  exact count_eq_one_of_nodup_mem hnodup ((hmem r).mpr ⟨hrin, hnoext⟩)

/-- C3 witness: a concrete insertion (with a duplicate) whose non-extended
path appears exactly once in the output. -/
theorem claim_C3_witness :
    (["A", "B"] : List String) ∈ [["A", "B"], ["A", "C"], ["A", "B"]]
    ∧ (¬∃ q ∈ [["A", "B"], ["A", "C"], ["A", "B"]],
        (["A", "B"] : List String) <+: q ∧ ["A", "B"] ≠ q)
    ∧ ((trieOf [["A", "B"], ["A", "C"], ["A", "B"]]).traverse []).count ["A", "B"]
        = 1 :=
  ⟨by decide, by decide,
    (claim_C3 [["A", "B"], ["A", "C"], ["A", "B"]]).2.2 ["A", "B"]
      (by decide) (by decide)⟩
